import Mathlib

/-!
# physfs_streambuf

A shallow embedding of `physfs_streambuf.hpp`: the class template
`physfs_basic_streambuf<CharT, Traits>`, a `std::basic_streambuf` whose
controlled sequence is a PhysicsFS file.

* Memory is byte addressed: the array `buffer` of `buffer_size` elements of
  `sizeof(char_type) = width` bytes is a list of `buffer_size * width` bytes,
  and a `char_type` value is its object representation (`width` bytes).
* The six stream-buffer pointers are element offsets from `buffer`
  (signed, as pointer arithmetic is); an area whose pointers are all null
  is `none`.
* The PhysicsFS library is a record of functions over an explicit world.
* `size_t` is 64 bits wide (LP64 / LLP64) and `PHYSFS_sint64` is a signed
  64-bit integer, so `read_bytes < sizeof(char_type)` and
  `read_bytes / sizeof(char_type)` are evaluated on 64-bit unsigned values.
* `buffer_size` is an element count: the non-negative values of
  `std::streamsize`. With a negative value `new char_type[buffer_size]`
  throws and the path constructor yields no object; allocation of a
  non-negative count is taken to succeed.
* Products of an element count and `sizeof(char_type)` are byte sizes of
  (parts of) that array and are taken exactly, as is the signed arithmetic
  of `showmanyc`, where overflow would be undefined behaviour.
* The members never read `buffer` before the path constructor has set it,
  except `underflow` on an object built from a handle, where the pointer is
  indeterminate in C++; there the embedding stores nothing and reads `[]`.
-/

/-- One byte of memory or of a file. -/
abbrev Byte := Fin 256

/-- A non-null `PHYSFS_File *`. -/
abbrev Handle := Nat

/-- A value of `CharT`, given by its object representation. -/
abbrev char_type := List Byte

/-- The template parameters `CharT` and `Traits`: `width` is
`sizeof(char_type)`, the rest are the members of `Traits` the class uses. -/
structure traits_type where
  width : Nat
  to_int_type : char_type → Int
  to_char_type : Int → char_type
  eof : Int

/-- What the C++ standard requires of a character traits class, as far as
the class relies on it: elements have one fixed size of at least one byte,
`to_char_type` inverts `to_int_type`, and `eof()` is no element's encoding. -/
structure traits_type.Lawful (T : traits_type) : Prop where
  width_pos : 1 ≤ T.width
  char_len : ∀ i : Int, (T.to_char_type i).length = T.width
  to_char_to_int : ∀ c : char_type, c.length = T.width → T.to_char_type (T.to_int_type c) = c
  to_int_ne_eof : ∀ c : char_type, c.length = T.width → T.to_int_type c ≠ T.eof

/-- The traits `std::char_traits<char>` of the alias `physfs_streambuf`:
`to_int_type` goes through `unsigned char`, `eof()` is `-1`. -/
def char_traits_char : traits_type where
  width := 1
  to_int_type := fun c => match c with
    | [b] => (b.val : Int)
    | _ => 0
  to_char_type := fun i => [Fin.ofNat (i % 256).toNat]
  eof := -1

/-- A two-byte element type (such as `char16_t`), little endian, with
`eof()` outside the range of the encodings. -/
def char_traits_wide : traits_type where
  width := 2
  to_int_type := fun c => match c with
    | [lo, hi] => (lo.val : Int) + 256 * (hi.val : Int)
    | _ => 0
  to_char_type := fun i => [Fin.ofNat (i % 256).toNat, Fin.ofNat ((i / 256) % 256).toNat]
  eof := 65536

/-- Conversion of a signed value to a 64-bit unsigned integer type. -/
def toUInt64 (x : Int) : Nat := (x % (2 : Int) ^ 64).toNat

/-- Conversion of an unsigned 64-bit value to `PHYSFS_sint64`. -/
def toSInt64 (u : Nat) : Int :=
  if u % 2 ^ 64 < 2 ^ 63 then ((u % 2 ^ 64 : Nat) : Int) else ((u % 2 ^ 64 : Nat) : Int) - (2 : Int) ^ 64

/-- The mode `std::ios::app`. `std::ios::openmode` is a bitmask type; the
bit values are those of libstdc++, the standard only asks that the modes
are distinct bits. -/
def ios_app : Nat := 1

/-- The mode `std::ios::binary`. -/
def ios_binary : Nat := 4

/-- The mode `std::ios::in`. -/
def ios_in : Nat := 8

/-- The mode `std::ios::out`. -/
def ios_out : Nat := 16

/-- The PhysicsFS calls the class makes, over a world `W`. `readBytes`
gives the returned count and the bytes the library stored at the
destination; `writeBytes` receives the bytes found at the source and the
requested length. -/
structure PhysFS (W : Type) where
  openAppend : String → W → Option Handle × W
  openRead : String → W → Option Handle × W
  openWrite : String → W → Option Handle × W
  readBytes : Handle → Nat → W → (Int × List Byte) × W
  writeBytes : Handle → List Byte → Nat → W → Int × W
  tell : Handle → W → Int × W
  fileLength : Handle → W → Int × W

/-- One call into the library, as recorded by `logged`. -/
inductive Call where
  | openAppend (filename : String)
  | openRead (filename : String)
  | openWrite (filename : String)
  | readBytes (file : Handle) (len : Nat)
  | writeBytes (file : Handle) (payload : List Byte) (len : Nat)
  | tell (file : Handle)
  | fileLength (file : Handle)
  deriving DecidableEq, Repr

/-- The library `L` with every call appended to a log kept beside the world. -/
def logged {W : Type} (L : PhysFS W) : PhysFS (W × List Call) where
  openAppend := fun f w => ((L.openAppend f w.1).1, ((L.openAppend f w.1).2, w.2 ++ [Call.openAppend f]))
  openRead := fun f w => ((L.openRead f w.1).1, ((L.openRead f w.1).2, w.2 ++ [Call.openRead f]))
  openWrite := fun f w => ((L.openWrite f w.1).1, ((L.openWrite f w.1).2, w.2 ++ [Call.openWrite f]))
  readBytes := fun h n w => ((L.readBytes h n w.1).1, ((L.readBytes h n w.1).2, w.2 ++ [Call.readBytes h n]))
  writeBytes := fun h p n w =>
    ((L.writeBytes h p n w.1).1, ((L.writeBytes h p n w.1).2, w.2 ++ [Call.writeBytes h p n]))
  tell := fun h w => ((L.tell h w.1).1, ((L.tell h w.1).2, w.2 ++ [Call.tell h]))
  fileLength := fun h w => ((L.fileLength h w.1).1, ((L.fileLength h w.1).2, w.2 ++ [Call.fileLength h]))

/-- The three pointers of a get area (`eback`, `gptr`, `egptr`) or of a put
area (`pbase`, `pptr`, `epptr`), as element offsets from `buffer`. -/
structure Area where
  first : Int
  next : Int
  last : Int
  deriving DecidableEq, Repr

/-- The object state: the members `file`, `buffer`, `buffer_size` and the
get and put areas of the `std::basic_streambuf` base. `buffer` is `none`
while the pointer has not been given an array. -/
structure physfs_basic_streambuf where
  file : Option Handle
  buffer : Option (List Byte)
  buffer_size : Nat
  getArea : Option Area
  putArea : Option Area
  deriving DecidableEq, Repr

/-- The bytes `[off, off + len)` of the array behind `buffer`. -/
def readMem (mem : Option (List Byte)) (off len : Nat) : List Byte :=
  match mem with
  | some b => (b.drop off).take len
  | none => []

/-- The array behind `buffer` after `data` has been stored at byte `off`. -/
def writeMem (mem : Option (List Byte)) (off : Nat) (data : List Byte) : Option (List Byte) :=
  match mem with
  | some b => some ((b.take off ++ data ++ b.drop (off + data.length)).take b.length)
  | none => none

namespace physfs_basic_streambuf

/-- The pointer `gptr()`; a null pointer counts as offset 0, so that
differences of two null pointers are 0 as in C++. -/
def gptr (s : physfs_basic_streambuf) : Int :=
  match s.getArea with
  | some a => a.next
  | none => 0

/-- The pointer `egptr()`. -/
def egptr (s : physfs_basic_streambuf) : Int :=
  match s.getArea with
  | some a => a.last
  | none => 0

/-- The pointer `pbase()`. -/
def pbase (s : physfs_basic_streambuf) : Int :=
  match s.putArea with
  | some a => a.first
  | none => 0

/-- The pointer `pptr()`. -/
def pptr (s : physfs_basic_streambuf) : Int :=
  match s.putArea with
  | some a => a.next
  | none => 0

/-- The pointer `epptr()`. -/
def epptr (s : physfs_basic_streambuf) : Int :=
  match s.putArea with
  | some a => a.last
  | none => 0

/-- The call `setg(buffer, buffer, buffer + n)`. -/
def setg (s : physfs_basic_streambuf) (n : Int) : physfs_basic_streambuf :=
  { s with getArea := some ⟨0, 0, n⟩ }

/-- The call `setp(buffer, buffer + n)`. -/
def setp (s : physfs_basic_streambuf) (n : Int) : physfs_basic_streambuf :=
  { s with putArea := some ⟨0, 0, n⟩ }

/-- The element `buffer[i]`. -/
def elemAt (T : traits_type) (s : physfs_basic_streambuf) (i : Int) : char_type :=
  readMem s.buffer (i.toNat * T.width) T.width

/-- The default constructor: it sets `file` to null and nothing else;
`junk_size` is the indeterminate value of `buffer_size`. -/
def ctor_default (junk_size : Nat) : physfs_basic_streambuf :=
  { file := none, buffer := none, buffer_size := junk_size, getArea := none, putArea := none }

/-- The constructor `physfs_basic_streambuf(PHYSFS_File *file, std::streamsize buffer_size)`:
it stores its two arguments and nothing else. -/
def ctor_file (file : Option Handle) (buffer_size : Nat) : physfs_basic_streambuf :=
  { file := file, buffer := none, buffer_size := buffer_size, getArea := none, putArea := none }

/-- The `switch (mode)` of the path constructor: the open call made for
`mode` and the value it leaves in `file`. -/
def open_by_mode {W : Type} (L : PhysFS W) (filename : String) (mode : Nat) (world : W) :
    Option Handle × W :=
  if mode = ios_app then L.openAppend filename world
  else if mode = ios_in then L.openRead filename world
  else if mode = ios_out then L.openWrite filename world
  else (none, world)

/-- The constructor `physfs_basic_streambuf(const char *filename, std::ios::openmode mode,
std::streamsize buffer_size)`. `junk` is the indeterminate content of the
fresh array. -/
def ctor_path {W : Type} (T : traits_type) (L : PhysFS W) (junk : Nat → Byte)
    (filename : String) (mode : Nat) (buffer_size : Nat) (world : W) :
    physfs_basic_streambuf × W :=
  match (open_by_mode L filename mode world).1 with
  | some h =>
    (setp { file := some h, buffer := some ((List.range (buffer_size * T.width)).map junk),
            buffer_size := buffer_size, getArea := none, putArea := none } buffer_size,
     (open_by_mode L filename mode world).2)
  | none =>
    ({ file := none, buffer := none, buffer_size := buffer_size, getArea := none, putArea := none },
     (open_by_mode L filename mode world).2)

/-- The member `underflow()`. -/
def underflow {W : Type} (T : traits_type) (L : PhysFS W) (s : physfs_basic_streambuf)
    (world : W) : Int × physfs_basic_streambuf × W :=
  match s.file with
  | none => (T.eof, s, world)
  | some h =>
    let res := L.readBytes h (s.buffer_size * T.width) world
    let read_bytes : Int := res.1.1
    let s1 : physfs_basic_streambuf := { s with buffer := writeMem s.buffer 0 res.1.2 }
    if toUInt64 read_bytes < T.width then (T.eof, s1, res.2)
    else
      let read_chars : Int := toSInt64 (toUInt64 read_bytes / T.width)
      let s2 := setg s1 read_chars
      (T.to_int_type (elemAt T s2 0), s2, res.2)

/-- The member `showmanyc()`. -/
def showmanyc {W : Type} (L : PhysFS W) (s : physfs_basic_streambuf) (world : W) :
    Int × physfs_basic_streambuf × W :=
  match s.file with
  | none => (-1, s, world)
  | some h =>
    let t := L.tell h world
    let current_pos : Int := t.1
    if current_pos ≥ 0 then
      let l := L.fileLength h t.2
      let file_length : Int := l.1
      if file_length ≥ 0 then
        let buffered_size : Int := s.egptr - s.gptr
        (file_length - (buffered_size + current_pos), s, l.2)
      else (0, s, l.2)
    else (0, s, t.2)

/-- The member `sync()`. -/
def sync {W : Type} (T : traits_type) (L : PhysFS W) (s : physfs_basic_streambuf)
    (world : W) : Int × physfs_basic_streambuf × W :=
  match s.file with
  | none => (-1, s, world)
  | some h =>
    let chars_to_write : Int := s.pptr - s.pbase
    if chars_to_write > 0 then
      let bytes_to_write : Int := chars_to_write * T.width
      let res := L.writeBytes h (readMem s.buffer (s.pbase.toNat * T.width) bytes_to_write.toNat)
        bytes_to_write.toNat world
      let bytes_written : Int := res.1
      if bytes_written < bytes_to_write then (-1, s, res.2)
      else (0, setp s s.buffer_size, res.2)
    else (0, s, world)

/-- The base-class member `sputc(c)` as the C++ standard specifies it, with
the virtual call to `overflow` passed in: when the put area has room, store
`c` at `pptr()` and advance it; otherwise return `overflow(to_int_type(c))`. -/
def sputc_via {W : Type} (T : traits_type)
    (ovf : Int → physfs_basic_streambuf → W → Option (Int × physfs_basic_streambuf × W))
    (s : physfs_basic_streambuf) (c : char_type) (world : W) :
    Option (Int × physfs_basic_streambuf × W) :=
  match s.putArea with
  | some a =>
    if a.next < a.last then
      some (T.to_int_type c,
        { s with buffer := writeMem s.buffer (a.next.toNat * T.width) c,
                 putArea := some { a with next := a.next + 1 } },
        world)
    else ovf (T.to_int_type c) s world
  | none => ovf (T.to_int_type c) s world

/-- The member `overflow(i)`. The call chain `overflow → sputc → overflow`
is bounded by `fuel`; `none` means the fuel ran out before a return. -/
def overflow {W : Type} (T : traits_type) (L : PhysFS W) :
    Nat → Int → physfs_basic_streambuf → W → Option (Int × physfs_basic_streambuf × W)
  | 0, _, _, _ => none
  | fuel + 1, i, s, world =>
    match s.file with
    | none => some (T.eof, s, world)
    | some _ =>
      let r := sync T L s world
      if r.1 = -1 then some (T.eof, r.2.1, r.2.2)
      else sputc_via T (overflow T L fuel) r.2.1 (T.to_char_type i) r.2.2

/-- The base-class member `sputc(c)` of this class. -/
def sputc {W : Type} (T : traits_type) (L : PhysFS W) (fuel : Nat)
    (s : physfs_basic_streambuf) (c : char_type) (world : W) :
    Option (Int × physfs_basic_streambuf × W) :=
  sputc_via T (overflow T L fuel) s c world

/-- The base-class member `uflow()` as the C++ standard specifies its default:
call `underflow()`; on `eof()` return it, otherwise return the element at
`gptr()` and advance `gptr()`. -/
def uflow {W : Type} (T : traits_type) (L : PhysFS W) (s : physfs_basic_streambuf)
    (world : W) : Int × physfs_basic_streambuf × W :=
  let r := underflow T L s world
  if r.1 = T.eof then (T.eof, r.2.1, r.2.2)
  else
    match r.2.1.getArea with
    | some a =>
      (T.to_int_type (elemAt T r.2.1 a.next),
        { r.2.1 with getArea := some { a with next := a.next + 1 } }, r.2.2)
    | none => (T.to_int_type (elemAt T r.2.1 0), r.2.1, r.2.2)

/-- The base-class member `sbumpc()` as the C++ standard specifies it: when
a read position is available return the element there and advance
`gptr()`, otherwise return `uflow()`. -/
def sbumpc {W : Type} (T : traits_type) (L : PhysFS W) (s : physfs_basic_streambuf)
    (world : W) : Int × physfs_basic_streambuf × W :=
  match s.getArea with
  | some a =>
    if a.next < a.last then
      (T.to_int_type (elemAt T s a.next),
        { s with getArea := some { a with next := a.next + 1 } }, world)
    else uflow T L s world
  | none => uflow T L s world

/-- Put the elements one at a time with `sputc`, collecting the return
values; `none` when some `sputc` did not return within `fuel`. -/
def put_all {W : Type} (T : traits_type) (L : PhysFS W) (fuel : Nat) :
    List char_type → physfs_basic_streambuf → W →
    Option (List Int × physfs_basic_streambuf × W)
  | [], s, world => some ([], s, world)
  | c :: cs, s, world =>
    match sputc T L fuel s c world with
    | none => none
    | some r =>
      match put_all T L fuel cs r.2.1 r.2.2 with
      | none => none
      | some q => some (r.1 :: q.1, q.2.1, q.2.2)

/-- Read with `sbumpc` until it returns `eof()`, collecting the values
returned before; `none` when `eof()` was not reached within `fuel` reads. -/
def drain {W : Type} (T : traits_type) (L : PhysFS W) :
    Nat → physfs_basic_streambuf → W → Option (List Int)
  | 0, _, _ => none
  | fuel + 1, s, world =>
    let r := sbumpc T L s world
    if r.1 = T.eof then some []
    else
      match drain T L fuel r.2.1 r.2.2 with
      | none => none
      | some rest => some (r.1 :: rest)

end physfs_basic_streambuf

/-- One of the four virtual members, with its argument. -/
inductive Op where
  | underflow
  | showmanyc
  | overflow (i : Int)
  | sync
  deriving DecidableEq, Repr

/-- The failure value of each member: `eof()` for `underflow` and
`overflow`, `-1` for `showmanyc` and `sync`. -/
def Op.sentinel (T : traits_type) : Op → Int
  | Op.underflow => T.eof
  | Op.showmanyc => -1
  | Op.overflow _ => T.eof
  | Op.sync => -1

/-- Call one member; `none` when `overflow` did not return within `fuel`. -/
def Op.call {W : Type} (T : traits_type) (L : PhysFS W) (fuel : Nat) (op : Op)
    (s : physfs_basic_streambuf) (world : W) : Option (Int × physfs_basic_streambuf × W) :=
  match op with
  | Op.underflow => some (s.underflow T L world)
  | Op.showmanyc => some (s.showmanyc L world)
  | Op.overflow i => physfs_basic_streambuf.overflow T L fuel i s world
  | Op.sync => some (s.sync T L world)

/-- Call the members of a list in order, collecting the return values. -/
def Op.callAll {W : Type} (T : traits_type) (L : PhysFS W) (fuel : Nat) :
    List Op → physfs_basic_streambuf → W → Option (List Int × physfs_basic_streambuf × W)
  | [], s, world => some ([], s, world)
  | op :: ops, s, world =>
    match op.call T L fuel s world with
    | none => none
    | some r =>
      match Op.callAll T L fuel ops r.2.1 r.2.2 with
      | none => none
      | some q => some (r.1 :: q.1, q.2.1, q.2.2)

/-- The one file of a faithful file system, with the cursor of the handle
open on it. -/
structure FileSys where
  content : List Byte
  cursor : Nat
  deriving DecidableEq, Repr

/-- A faithful file: opening for reading puts the cursor at the start,
opening for writing empties the file, opening for appending keeps it; a
read returns the next `min(requested, remaining)` bytes and advances the
cursor past them; a write appends all requested bytes and reports that
count; `tell` is the cursor and `fileLength` the length of the content. -/
def faithful : PhysFS FileSys where
  openAppend := fun _ fs => (some 1, { fs with cursor := fs.content.length })
  openRead := fun _ fs => (some 1, { fs with cursor := 0 })
  openWrite := fun _ _ => (some 1, { content := [], cursor := 0 })
  readBytes := fun _ len fs =>
    ((((fs.content.drop fs.cursor).take len).length, (fs.content.drop fs.cursor).take len),
      { fs with cursor := fs.cursor + ((fs.content.drop fs.cursor).take len).length })
  writeBytes := fun _ payload len fs =>
    ((len : Int), { content := fs.content ++ payload.take len,
                    cursor := fs.content.length + len })
  tell := fun _ fs => ((fs.cursor : Int), fs)
  fileLength := fun _ fs => ((fs.content.length : Int), fs)

/-- A library that answers every call with fixed values and has no state:
`rd` and `data` for a read, `wr` for a write, `pos` and `len` for `tell`
and `fileLength`; every open call returns `file`. -/
def scripted (file : Option Handle) (rd : Int) (data : List Byte) (wr pos len : Int) :
    PhysFS Unit where
  openAppend := fun _ _ => (file, ())
  openRead := fun _ _ => (file, ())
  openWrite := fun _ _ => (file, ())
  readBytes := fun _ _ _ => ((rd, data), ())
  writeBytes := fun _ _ _ _ => (wr, ())
  tell := fun _ _ => (pos, ())
  fileLength := fun _ _ => (len, ())

/-- Put-side invariant of an adapter the path constructor opened with
capacity `c`: the array has `c` elements, the put area is
`[buffer, buffer + c)` with `n` elements staged, and `staged` is their bytes. -/
structure PutInv (T : traits_type) (c : Nat) (h : Handle) (s : physfs_basic_streambuf)
    (n : Nat) (staged : List Byte) : Prop where
  has_file : s.file = some h
  size_eq : s.buffer_size = c
  in_buffer : ∃ b : List Byte, s.buffer = some b ∧ b.length = c * T.width ∧ n ≤ c
    ∧ s.putArea = some ⟨0, (n : Int), (c : Int)⟩ ∧ b.take (n * T.width) = staged

/-- Write-side invariant over a faithful file: the file content followed by
the staged bytes is `written`. -/
def WriteInv (T : traits_type) (c : Nat) (s : physfs_basic_streambuf) (fs : FileSys)
    (written : List Byte) : Prop :=
  ∃ (h : Handle) (n : Nat) (staged : List Byte),
    PutInv T c h s n staged ∧ fs.content ++ staged = written

/-- Read-side invariant over a faithful file: `pend` are the elements of the
get area not yet consumed, `rest` the elements of the file behind the cursor. -/
structure ReadInv (T : traits_type) (c : Nat) (s : physfs_basic_streambuf) (fs : FileSys)
    (pend rest : List char_type) : Prop where
  has_file : ∃ h : Handle, s.file = some h
  size_eq : s.buffer_size = c
  pend_width : ∀ x ∈ pend, x.length = T.width
  rest_width : ∀ x ∈ rest, x.length = T.width
  on_file : fs.content.drop fs.cursor = rest.flatten
  buffered : ∃ b : List Byte, s.buffer = some b ∧ b.length = c * T.width
    ∧ ((s.getArea = none ∧ pend = [])
      ∨ ∃ g : Nat, s.getArea = some ⟨0, (g : Int), ((g + pend.length : Nat) : Int)⟩
          ∧ g + pend.length ≤ c
          ∧ (b.drop (g * T.width)).take (pend.length * T.width) = pend.flatten)

/-- A byte adapter built from an open handle with `buffer_size` 4, after an
`underflow` in which `PHYSFS_readBytes` delivered the three bytes `A B C`. -/
def handle_built_fill : Int × physfs_basic_streambuf × (Unit × List Call) :=
  (physfs_basic_streambuf.ctor_file (some 1) 4).underflow char_traits_char
    (logged (scripted (some 1) 3 [65, 66, 67] 0 0 0)) ((), [])

/-- The elements `A B C D E` of a byte stream. -/
def abcde : List char_type := [[65], [66], [67], [68], [69]]

/-- A byte adapter of capacity 4 opened for reading, after an `underflow`
in which `PHYSFS_readBytes` reported the error value `-1` and stored nothing. -/
def failed_read : Int × physfs_basic_streambuf × Unit :=
  (physfs_basic_streambuf.ctor_path char_traits_char (scripted (some 1) (-1) [] 0 0 0)
      (fun _ => 65) "f" ios_in 4 ()).1.underflow
    char_traits_char (scripted (some 1) (-1) [] 0 0 0) ()

/-- An adapter of two-byte elements and capacity 1, opened for reading on a
faithful file of four bytes, after one `underflow`. -/
def filled_wide : Int × physfs_basic_streambuf × FileSys :=
  (physfs_basic_streambuf.ctor_path char_traits_wide faithful (fun _ => 0) "f" ios_in 1
      ⟨[1, 2, 3, 4], 0⟩).1.underflow
    char_traits_wide faithful
    (physfs_basic_streambuf.ctor_path char_traits_wide faithful (fun _ => 0) "f" ios_in 1
      ⟨[1, 2, 3, 4], 0⟩).2

/-- A byte adapter of capacity 4 with an open handle and `A B` staged. -/
def staged_two : physfs_basic_streambuf :=
  ⟨some 1, some [65, 66, 0, 0], 4, none, some ⟨0, 2, 4⟩⟩

/-- A byte adapter of capacity 4 with an open handle, as the path
constructor leaves it. -/
def fresh_four : physfs_basic_streambuf :=
  ⟨some 1, some [0, 0, 0, 0], 4, none, some ⟨0, 0, 4⟩⟩

open physfs_basic_streambuf

/-! ## Arithmetic and list lemmas -/

theorem toUInt64_of_nonneg (r : Int) (h0 : 0 ≤ r) (h1 : r < 2 ^ 63) : toUInt64 r = r.toNat := by
  unfold toUInt64
  have : r % (2 : Int) ^ 64 = r := Int.emod_eq_of_lt h0 (by omega)
  rw [this]

theorem toSInt64_of_small (u : Nat) (h : u < 2 ^ 63) : toSInt64 u = (u : Int) := by
  unfold toSInt64
  have h2 : u % 2 ^ 64 = u := Nat.mod_eq_of_lt (by omega)
  rw [h2, if_pos h]

theorem flatten_length_of_width (w : Nat) (l : List (List Byte)) (hl : ∀ x ∈ l, x.length = w) :
    l.flatten.length = l.length * w := by
  induction l with
  | nil => simp
  | cons x l ih =>
    have hx : x.length = w := hl x (List.mem_cons_self _ _)
    have := ih (fun y hy => hl y (List.mem_cons_of_mem _ hy))
    simp only [List.flatten_cons, List.length_append, List.length_cons, hx, this]
    rw [Nat.add_mul]; omega

theorem flatten_take_of_width (w : Nat) (l : List (List Byte)) (hl : ∀ x ∈ l, x.length = w) :
    ∀ k : Nat, l.flatten.take (k * w) = (l.take k).flatten := by
  induction l with
  | nil => intro k; simp
  | cons x l ih =>
    intro k
    have hx : x.length = w := hl x (List.mem_cons_self _ _)
    cases k with
    | zero => simp
    | succ k =>
      have hk : (k + 1) * w - x.length = k * w := by rw [hx, Nat.add_mul]; omega
      have hle : x.length ≤ (k + 1) * w := by rw [hx, Nat.add_mul]; omega
      simp only [List.flatten_cons, List.take_succ_cons]
      rw [List.take_append_eq_append_take, List.take_of_length_le hle, hk,
        ih (fun y hy => hl y (List.mem_cons_of_mem _ hy))]

theorem take_store (w c n : Nat) (b x : List Byte) (hb : b.length = c * w) (hx : x.length = w)
    (hn : n < c) :
    ((b.take (n * w) ++ x ++ b.drop (n * w + x.length)).take b.length).take ((n + 1) * w)
      = b.take (n * w) ++ x
    ∧ ((b.take (n * w) ++ x ++ b.drop (n * w + x.length)).take b.length).length = c * w := by
  have h1 : (n + 1) * w ≤ c * w := Nat.mul_le_mul_right _ hn
  have h2 : (n + 1) * w = n * w + w := by rw [Nat.add_mul]; omega
  have hlen : (b.take (n * w) ++ x).length = (n + 1) * w := by
    simp only [List.length_append, List.length_take, hb, hx]; omega
  constructor
  · rw [List.take_take, Nat.min_eq_left (by omega), List.take_append_of_le_length (by omega),
      ← hlen, List.take_length]
  · simp only [List.length_take, List.length_append, List.length_drop, hb, hx]; omega

/-- The traits of `char` meet the requirements on a traits class. -/
theorem char_traits_char_lawful : char_traits_char.Lawful where
  width_pos := by decide
  char_len := by intro i; rfl
  to_char_to_int := by
    intro c hc
    match c, hc with
    | [b], _ =>
      simp only [char_traits_char]
      have h1 : ((b.val : Int) % 256).toNat = b.val := by omega
      rw [h1]
      congr 1
      apply Fin.ext
      simp [Fin.ofNat]
  to_int_ne_eof := by
    intro c hc
    match c, hc with
    | [b], _ =>
      simp only [char_traits_char]
      omega

/-! ## The members on a state with a null handle -/

theorem callAll_null {W : Type} (T : traits_type) (L : PhysFS W) (fuel : Nat)
    (s : physfs_basic_streambuf) (hnull : s.file = none) (world : W) (ops : List Op) :
    Op.callAll T L (fuel + 1) ops s world = some (ops.map (Op.sentinel T), s, world) := by
  induction ops with
  | nil => rfl
  | cons op ops ih =>
    cases op <;>
      simp [Op.callAll, Op.call, Op.sentinel, underflow, showmanyc, overflow, sync, hnull, ih]

/-! ## The put side -/

theorem PutInv.staged_length {T : traits_type} {c : Nat} {h : Handle}
    {s : physfs_basic_streambuf} {n : Nat} {staged : List Byte}
    (hinv : PutInv T c h s n staged) : staged.length = n * T.width := by
  obtain ⟨_, _, b, _, hlen, hn, _, htake⟩ := hinv
  rw [← htake, List.length_take, hlen]
  exact Nat.min_eq_left (Nat.mul_le_mul_right _ hn)

/-- With room in the put area `sputc` stores the element and calls nothing. -/
theorem sputc_room {W : Type} {T : traits_type} (M : PhysFS W) {c : Nat} {h : Handle}
    {s : physfs_basic_streambuf} {n : Nat} {staged : List Byte}
    (hinv : PutInv T c h s n staged) (hroom : n < c) (x : char_type) (hx : x.length = T.width)
    (fuel : Nat) (world : W) :
    ∃ s1 : physfs_basic_streambuf,
      sputc T M fuel s x world = some (T.to_int_type x, s1, world)
      ∧ PutInv T c h s1 (n + 1) (staged ++ x) := by
  obtain ⟨hfile, hsize, b, hbuf, hlen, hn, hput, htake⟩ := hinv
  have hroomI : (n : Int) < (c : Int) := by exact_mod_cast hroom
  have hst := take_store T.width c n b x hlen hx hroom
  refine ⟨{ s with
      buffer := some ((b.take (n * T.width) ++ x ++ b.drop (n * T.width + x.length)).take b.length),
      putArea := some ⟨0, (n : Int) + 1, (c : Int)⟩ },
    ?_, hfile, hsize, _, rfl, hst.2, hroom, ?_, ?_⟩
  · simp [sputc, sputc_via, hput, hroomI, hbuf, writeMem]
  · simp
  · rw [hst.1, htake]

/-- The result of `sync` when elements are staged: one write of the staged
bytes, then failure or a reset put area. -/
theorem sync_staged {W : Type} {T : traits_type} (M : PhysFS W) {c : Nat} {h : Handle}
    {s : physfs_basic_streambuf} {n : Nat} {staged : List Byte}
    (hinv : PutInv T c h s n staged) (hpos : 0 < n) (world : W) :
    s.sync T M world
      = (if (M.writeBytes h staged (n * T.width) world).1 < ((n * T.width : Nat) : Int)
          then (-1, s, (M.writeBytes h staged (n * T.width) world).2)
          else (0, s.setp s.buffer_size, (M.writeBytes h staged (n * T.width) world).2)) := by
  obtain ⟨hfile, hsize, b, hbuf, hlen, hn, hput, htake⟩ := hinv
  have hpp : s.pptr = (n : Int) := by simp [pptr, hput]
  have hpb : s.pbase = 0 := by simp [pbase, hput]
  have hmul : ((n : Int) * (T.width : Int)).toNat = n * T.width := by
    rw [← Nat.cast_mul]; exact Int.toNat_ofNat _
  have hposI : (0 : Int) < (n : Int) := by exact_mod_cast hpos
  simp [sync, hfile, hpp, hpb, hposI, hmul, readMem, hbuf, htake]

theorem PutInv.setp {T : traits_type} {c : Nat} {h : Handle}
    {s : physfs_basic_streambuf} {n : Nat} {staged : List Byte}
    (hinv : PutInv T c h s n staged) : PutInv T c h (s.setp s.buffer_size) 0 [] := by
  obtain ⟨hfile, hsize, b, hbuf, hlen, hn, hput, htake⟩ := hinv
  exact ⟨hfile, hsize, b, hbuf, hlen, Nat.zero_le _, by simp [physfs_basic_streambuf.setp, hsize],
    by simp⟩

/-- On a full put area `sputc` goes through `overflow`: when the write
succeeds in full, the staged bytes are written and the element is staged alone. -/
theorem sputc_full {W : Type} {T : traits_type} (hT : T.Lawful) (M : PhysFS W) {c : Nat}
    (hc : 1 ≤ c) {h : Handle} {s : physfs_basic_streambuf} {staged : List Byte}
    (hinv : PutInv T c h s c staged) (x : char_type) (hx : x.length = T.width)
    (fuel : Nat) (world : W)
    (hfull : ((c * T.width : Nat) : Int) ≤ (M.writeBytes h staged (c * T.width) world).1) :
    ∃ s1 : physfs_basic_streambuf,
      sputc T M (fuel + 1) s x world
        = some (T.to_int_type x, s1, (M.writeBytes h staged (c * T.width) world).2)
      ∧ PutInv T c h s1 1 x := by
  have hsync := sync_staged M hinv hc world
  rw [if_neg (by omega)] at hsync
  have hinv0 := hinv.setp
  obtain ⟨s1, h1, hinv1⟩ := sputc_room M hinv0 hc x hx 0 (M.writeBytes h staged (c * T.width) world).2
  have hnoroom : ¬ ((c : Int) < (c : Int)) := lt_irrefl _
  obtain ⟨hfile, hsize, b, hbuf, hlen, hn, hput, htake⟩ := hinv
  refine ⟨s1, ?_, by simpa using hinv1⟩
  have hround := hT.to_char_to_int x hx
  simp only [sputc] at h1
  simp only [sputc, sputc_via, hput, hnoroom, if_false, overflow, hfile, hsync, hround]
  have hne : ¬ ((0 : Int) = -1) := by decide
  simp only [hne, if_false]
  -- the inner sputc has room, so it never reaches its overflow argument
  obtain ⟨_, _, b0, hbuf0, _, _, hput0, _⟩ := hinv0
  have hroomI : (0 : Int) < (c : Int) := by exact_mod_cast hc
  simp only [sputc_via, hput0, Nat.cast_zero, hroomI, if_true] at h1 ⊢
  exact h1

theorem put_all_room {W : Type} {T : traits_type} (M : PhysFS W) {c : Nat} {h : Handle}
    (fuel : Nat) (world : W) (xs : List char_type) (hxs : ∀ x ∈ xs, x.length = T.width) :
    ∀ (s : physfs_basic_streambuf) (n : Nat) (staged : List Byte),
      PutInv T c h s n staged → n + xs.length ≤ c →
      ∃ s1 : physfs_basic_streambuf,
        put_all T M fuel xs s world = some (xs.map T.to_int_type, s1, world)
        ∧ PutInv T c h s1 (n + xs.length) (staged ++ xs.flatten) := by
  induction xs with
  | nil =>
    intro s n staged hinv _
    exact ⟨s, rfl, by simpa using hinv⟩
  | cons x xs ih =>
    intro s n staged hinv hle
    simp only [List.length_cons] at hle
    obtain ⟨s1, h1, hinv1⟩ :=
      sputc_room M hinv (by omega) x (hxs x (List.mem_cons_self _ _)) fuel world
    obtain ⟨s2, h2, hinv2⟩ :=
      ih (fun y hy => hxs y (List.mem_cons_of_mem _ hy)) s1 (n + 1) _ hinv1 (by omega)
    refine ⟨s2, ?_, ?_⟩
    · simp [put_all, h1, h2]
    · have e : n + (x :: xs).length = n + 1 + xs.length := by simp only [List.length_cons]; omega
      rw [e]
      simpa [List.append_assoc] using hinv2

/-- With nothing staged `sync` calls nothing and changes nothing. -/
theorem sync_nothing_staged {W : Type} {T : traits_type} (M : PhysFS W) {c : Nat} {h : Handle}
    {s : physfs_basic_streambuf} {staged : List Byte}
    (hinv : PutInv T c h s 0 staged) (world : W) :
    s.sync T M world = (0, s, world) ∧ staged = [] := by
  obtain ⟨hfile, hsize, b, hbuf, hlen, hn, hput, htake⟩ := hinv
  have hpp : s.pptr = 0 := by simp [pptr, hput]
  have hpb : s.pbase = 0 := by simp [pbase, hput]
  constructor
  · simp [sync, hfile, hpp, hpb]
  · simpa using htake.symm

theorem ctor_path_out {W : Type} (T : traits_type) (M : PhysFS W) (junk : Nat → Byte)
    (filename : String) (c : Nat) (world : W) (h : Handle)
    (hopen : (M.openWrite filename world).1 = some h) :
    ctor_path T M junk filename ios_out c world
      = (⟨some h, some ((List.range (c * T.width)).map junk), c, none, some ⟨0, 0, (c : Int)⟩⟩,
         (M.openWrite filename world).2) := by
  have ho : open_by_mode M filename ios_out world = M.openWrite filename world := by
    simp [open_by_mode, ios_out, ios_app, ios_in]
  simp [ctor_path, ho, hopen, setp]

theorem ctor_path_in {W : Type} (T : traits_type) (M : PhysFS W) (junk : Nat → Byte)
    (filename : String) (c : Nat) (world : W) (h : Handle)
    (hopen : (M.openRead filename world).1 = some h) :
    ctor_path T M junk filename ios_in c world
      = (⟨some h, some ((List.range (c * T.width)).map junk), c, none, some ⟨0, 0, (c : Int)⟩⟩,
         (M.openRead filename world).2) := by
  have ho : open_by_mode M filename ios_in world = M.openRead filename world := by
    simp [open_by_mode, ios_app, ios_in]
  simp [ctor_path, ho, hopen, setp]

/-- The state the path constructor leaves after a successful open has an
empty put area over a fresh array. -/
theorem PutInv.fresh (T : traits_type) (c : Nat) (h : Handle) (junk : Nat → Byte) :
    PutInv T c h ⟨some h, some ((List.range (c * T.width)).map junk), c, none,
      some ⟨0, 0, (c : Int)⟩⟩ 0 [] :=
  ⟨rfl, rfl, _, rfl, by simp, Nat.zero_le _, rfl, by simp⟩

theorem sputc_faithful {T : traits_type} (hT : T.Lawful) {c : Nat} (hc : 1 ≤ c)
    {s : physfs_basic_streambuf} {fs : FileSys} {written : List Byte}
    (hinv : WriteInv T c s fs written) (x : char_type) (hx : x.length = T.width) (fuel : Nat) :
    ∃ (s1 : physfs_basic_streambuf) (fs1 : FileSys),
      sputc T faithful (fuel + 1) s x fs = some (T.to_int_type x, s1, fs1)
      ∧ WriteInv T c s1 fs1 (written ++ x) := by
  obtain ⟨h, n, staged, hput, hcontent⟩ := hinv
  have hn : n ≤ c := by obtain ⟨_, _, b, _, _, hn, _, _⟩ := hput; exact hn
  by_cases hroom : n < c
  · obtain ⟨s1, h1, hinv1⟩ := sputc_room faithful hput hroom x hx (fuel + 1) fs
    exact ⟨s1, fs, h1, h, n + 1, staged ++ x, hinv1, by rw [← List.append_assoc, hcontent]⟩
  · have hnc : n = c := by omega
    subst hnc
    obtain ⟨s1, h1, hinv1⟩ := sputc_full hT faithful hc hput x hx fuel fs (by simp [faithful])
    refine ⟨s1, _, h1, h, 1, x, hinv1, ?_⟩
    have hl := hput.staged_length
    simp only [faithful]
    rw [List.take_of_length_le (by omega), hcontent]

theorem put_all_faithful {T : traits_type} (hT : T.Lawful) {c : Nat} (hc : 1 ≤ c) (fuel : Nat)
    (xs : List char_type) (hxs : ∀ x ∈ xs, x.length = T.width) :
    ∀ (s : physfs_basic_streambuf) (fs : FileSys) (written : List Byte),
      WriteInv T c s fs written →
      ∃ (s1 : physfs_basic_streambuf) (fs1 : FileSys),
        put_all T faithful (fuel + 1) xs s fs = some (xs.map T.to_int_type, s1, fs1)
        ∧ WriteInv T c s1 fs1 (written ++ xs.flatten) := by
  induction xs with
  | nil =>
    intro s fs written hinv
    exact ⟨s, fs, rfl, by simpa using hinv⟩
  | cons x xs ih =>
    intro s fs written hinv
    obtain ⟨s1, fs1, h1, hinv1⟩ :=
      sputc_faithful hT hc hinv x (hxs x (List.mem_cons_self _ _)) fuel
    obtain ⟨s2, fs2, h2, hinv2⟩ :=
      ih (fun y hy => hxs y (List.mem_cons_of_mem _ hy)) s1 fs1 _ hinv1
    refine ⟨s2, fs2, ?_, ?_⟩
    · simp [put_all, h1, h2]
    · simpa [List.append_assoc] using hinv2

theorem sync_faithful {T : traits_type} {c : Nat}
    {s : physfs_basic_streambuf} {fs : FileSys} {written : List Byte}
    (hinv : WriteInv T c s fs written) :
    (s.sync T faithful fs).1 = 0 ∧ (s.sync T faithful fs).2.2.content = written := by
  obtain ⟨h, n, staged, hput, hcontent⟩ := hinv
  by_cases hpos : 0 < n
  · have hs := sync_staged faithful hput hpos fs
    have hl := hput.staged_length
    rw [if_neg (by simp [faithful])] at hs
    rw [hs]
    simp only [faithful]
    rw [List.take_of_length_le (by omega), hcontent]
    exact ⟨trivial, rfl⟩
  · have h0 : n = 0 := by omega
    subst h0
    obtain ⟨hs, hnil⟩ := sync_nothing_staged faithful hput fs
    subst hnil
    rw [hs]
    simpa using hcontent

/-- Writing through a freshly opened write adapter on a faithful file and
flushing leaves exactly the elements in the file. -/
theorem write_then_sync_faithful {T : traits_type} (hT : T.Lawful) {c : Nat} (hc : 1 ≤ c)
    (junk : Nat → Byte) (filename : String) (fs : FileSys) (fuel : Nat)
    (xs : List char_type) (hxs : ∀ x ∈ xs, x.length = T.width) :
    ∃ (s1 : physfs_basic_streambuf) (fs1 : FileSys),
      put_all T faithful (fuel + 1) xs (ctor_path T faithful junk filename ios_out c fs).1
          (ctor_path T faithful junk filename ios_out c fs).2
        = some (xs.map T.to_int_type, s1, fs1)
      ∧ (s1.sync T faithful fs1).1 = 0
      ∧ (s1.sync T faithful fs1).2.2.content = xs.flatten := by
  rw [ctor_path_out T faithful junk filename c fs 1 rfl]
  have hinv0 : WriteInv T c ⟨some 1, some ((List.range (c * T.width)).map junk), c, none,
      some ⟨0, 0, (c : Int)⟩⟩ (faithful.openWrite filename fs).2 [] :=
    ⟨1, 0, [], PutInv.fresh T c 1 junk, rfl⟩
  obtain ⟨s1, fs1, h1, hinv1⟩ := put_all_faithful hT hc fuel xs hxs _ _ _ hinv0
  have hs := sync_faithful hinv1
  exact ⟨s1, fs1, h1, hs.1, by simpa using hs.2⟩

theorem map_to_char_to_int {T : traits_type} (hT : T.Lawful) (xs : List char_type)
    (hxs : ∀ x ∈ xs, x.length = T.width) :
    (xs.map T.to_int_type).map T.to_char_type = xs := by
  induction xs with
  | nil => rfl
  | cons x xs ih =>
    simp only [List.map_cons, hT.to_char_to_int x (hxs x (List.mem_cons_self _ _)),
      ih (fun y hy => hxs y (List.mem_cons_of_mem _ hy))]

/-! ## The get side -/

/-- The successful branch of `underflow`, for a count that is at least one
element and fits a signed 64-bit integer. -/
theorem underflow_of_full_element {W : Type} (T : traits_type) (L : PhysFS W)
    (s : physfs_basic_streambuf) (h : Handle) (hfile : s.file = some h) (world : W)
    (hw : 1 ≤ T.width)
    (hr1 : (T.width : Int) ≤ (L.readBytes h (s.buffer_size * T.width) world).1.1)
    (hr2 : (L.readBytes h (s.buffer_size * T.width) world).1.1 < 2 ^ 63) :
    s.underflow T L world
      = (T.to_int_type (elemAt T
            { s with buffer := writeMem s.buffer 0 (L.readBytes h (s.buffer_size * T.width) world).1.2,
                     getArea := some ⟨0, 0, (L.readBytes h (s.buffer_size * T.width) world).1.1 / (T.width : Int)⟩ } 0),
          { s with buffer := writeMem s.buffer 0 (L.readBytes h (s.buffer_size * T.width) world).1.2,
                   getArea := some ⟨0, 0, (L.readBytes h (s.buffer_size * T.width) world).1.1 / (T.width : Int)⟩ },
          (L.readBytes h (s.buffer_size * T.width) world).2) := by
  generalize hres : L.readBytes h (s.buffer_size * T.width) world = res at hr1 hr2 ⊢
  have h0 : 0 ≤ res.1.1 := by omega
  have hu : toUInt64 res.1.1 = res.1.1.toNat := toUInt64_of_nonneg _ h0 hr2
  have hnlt : ¬ res.1.1.toNat < T.width := by omega
  have hdiv : ((res.1.1.toNat / T.width : Nat) : Int) = res.1.1 / (T.width : Int) := by
    rw [Int.ofNat_ediv, Int.toNat_of_nonneg h0]
  have hsm : res.1.1.toNat / T.width < 2 ^ 63 := by
    have : res.1.1.toNat / T.width ≤ res.1.1.toNat := Nat.div_le_self _ _
    omega
  simp only [underflow, hfile, hres, hu, hnlt, if_false, toSInt64_of_small _ hsm, hdiv, setg]

/-- A count from zero up to, but short of, one element makes `underflow`
return `eof()` and leaves the get area as it was. -/
theorem underflow_short_nonneg {W : Type} (T : traits_type) (L : PhysFS W)
    (s : physfs_basic_streambuf) (h : Handle) (hfile : s.file = some h) (world : W)
    (hr0 : 0 ≤ (L.readBytes h (s.buffer_size * T.width) world).1.1)
    (hr1 : (L.readBytes h (s.buffer_size * T.width) world).1.1 < (T.width : Int))
    (hr2 : (L.readBytes h (s.buffer_size * T.width) world).1.1 < 2 ^ 63) :
    s.underflow T L world
      = (T.eof,
          { s with buffer := writeMem s.buffer 0 (L.readBytes h (s.buffer_size * T.width) world).1.2 },
          (L.readBytes h (s.buffer_size * T.width) world).2) := by
  generalize hres : L.readBytes h (s.buffer_size * T.width) world = res at hr0 hr1 hr2 ⊢
  have hu : toUInt64 res.1.1 = res.1.1.toNat := toUInt64_of_nonneg _ hr0 hr2
  have hlt : res.1.1.toNat < T.width := by omega
  simp only [underflow, hfile, hres, hu, hlt, if_true]

/-- What `showmanyc` computes with an open handle: `0` when `tell` is
negative (without asking for the length) or the length is negative, and
otherwise the length minus the sum of `egptr() - gptr()`, a count of
elements, and the position. The state is never changed. -/
theorem showmanyc_open {W : Type} (L : PhysFS W) (s : physfs_basic_streambuf) (h : Handle)
    (hfile : s.file = some h) (world : W) (log : List Call) :
    ((L.tell h world).1 < 0 →
      s.showmanyc (logged L) (world, log) = (0, s, ((L.tell h world).2, log ++ [Call.tell h])))
    ∧ (0 ≤ (L.tell h world).1 → (L.fileLength h (L.tell h world).2).1 < 0 →
      s.showmanyc (logged L) (world, log)
        = (0, s, ((L.fileLength h (L.tell h world).2).2,
            log ++ [Call.tell h, Call.fileLength h])))
    ∧ (0 ≤ (L.tell h world).1 → 0 ≤ (L.fileLength h (L.tell h world).2).1 →
      s.showmanyc (logged L) (world, log)
        = ((L.fileLength h (L.tell h world).2).1 - ((s.egptr - s.gptr) + (L.tell h world).1), s,
            ((L.fileLength h (L.tell h world).2).2, log ++ [Call.tell h, Call.fileLength h]))) := by
  refine ⟨?_, ?_, ?_⟩
  · intro hneg
    have : ¬ (0 ≤ (L.tell h world).1) := by omega
    simp [showmanyc, hfile, logged, this]
  · intro hpos hneg
    have : ¬ (0 ≤ (L.fileLength h (L.tell h world).2).1) := by omega
    simp [showmanyc, hfile, logged, hpos, this]
  · intro hpos hlen
    simp [showmanyc, hfile, logged, hpos, hlen]

theorem sbumpc_buffered {T : traits_type} {c : Nat} {s : physfs_basic_streambuf} {fs : FileSys}
    {x : char_type} {pend rest : List char_type} (hinv : ReadInv T c s fs (x :: pend) rest) :
    ∃ s1 : physfs_basic_streambuf,
      sbumpc T faithful s fs = (T.to_int_type x, s1, fs) ∧ ReadInv T c s1 fs pend rest := by
  obtain ⟨hfile, hsize, hpw, hrw, hon, b, hbuf, hlen, hbuffered⟩ := hinv
  rcases hbuffered with ⟨_, hnil⟩ | ⟨g, hget, hle, heq⟩
  · cases hnil
  · have hx : x.length = T.width := hpw x (List.mem_cons_self _ _)
    have hlt : (g : Int) < ((g + (x :: pend).length : Nat) : Int) := by
      simp only [List.length_cons]; omega
    simp only [List.length_cons, List.flatten_cons] at heq hle
    have hel : (b.drop (g * T.width)).take T.width = x := by
      have := congrArg (List.take T.width) heq
      rw [List.take_take, ← hx, List.take_left, hx, Nat.min_eq_left] at this
      · exact this
      · rw [Nat.add_mul]; omega
    have hrest : (b.drop ((g + 1) * T.width)).take (pend.length * T.width) = pend.flatten := by
      have := congrArg (List.drop T.width) heq
      rw [List.drop_take, List.drop_drop] at this
      conv at this => rhs; rw [← hx, List.drop_left]
      have e1 : (pend.length + 1) * T.width - T.width = pend.length * T.width := by
        rw [Nat.add_mul]; omega
      have e2 : g * T.width + T.width = (g + 1) * T.width := by rw [Nat.add_mul]; omega
      rw [e1, e2] at this
      exact this
    refine ⟨{ s with getArea := some ⟨0, (g : Int) + 1, ((g + (x :: pend).length : Nat) : Int)⟩ },
      ?_, hfile, hsize, fun y hy => hpw y (List.mem_cons_of_mem _ hy), hrw, hon, b, hbuf, hlen,
      Or.inr ⟨g + 1, ?_, ?_, hrest⟩⟩
    · simp only [sbumpc, hget, hlt, if_true, elemAt, hbuf, readMem, Int.toNat_ofNat, hel]
    · simp only [List.length_cons]
      congr 2
      · push_cast; ring_nf
    · omega

theorem sbumpc_refill {T : traits_type} (hT : T.Lawful) {c : Nat} (hc : 1 ≤ c)
    (hsz : c * T.width < 2 ^ 63) {s : physfs_basic_streambuf} {fs : FileSys}
    {x : char_type} {rest : List char_type} (hinv : ReadInv T c s fs [] (x :: rest)) :
    ∃ (s1 : physfs_basic_streambuf) (fs1 : FileSys),
      sbumpc T faithful s fs = sbumpc T faithful s1 fs1
      ∧ ReadInv T c s1 fs1 (x :: rest.take (c - 1)) ((x :: rest).drop c) := by
  obtain ⟨⟨h, hfile⟩, hsize, hpw, hrw, hon, b, hbuf, hlen, hbuffered⟩ := hinv
  have hw := hT.width_pos
  obtain ⟨c', rfl⟩ : ∃ c', c = c' + 1 := ⟨c - 1, by omega⟩
  simp only [Nat.add_sub_cancel]
  -- the bytes the library delivers
  have hdata : (fs.content.drop fs.cursor).take ((c' + 1) * T.width)
      = (x :: rest.take c').flatten := by
    rw [hon, flatten_take_of_width T.width _ hrw, List.take_succ_cons]
  have hpw1 : ∀ y ∈ x :: rest.take c', y.length = T.width := by
    intro y hy
    rcases List.mem_cons.mp hy with rfl | hy
    · exact hrw _ (List.mem_cons_self _ _)
    · exact hrw y (List.mem_cons_of_mem _ (List.mem_of_mem_take hy))
  have hdlen : (x :: rest.take c').flatten.length = (rest.take c').length * T.width + T.width := by
    rw [flatten_length_of_width T.width _ hpw1, List.length_cons, Nat.add_mul]; omega
  have hk : (rest.take c').length ≤ c' := by simp
  have hkw : (rest.take c').length * T.width ≤ c' * T.width := Nat.mul_le_mul_right _ hk
  have hcw : (c' + 1) * T.width = c' * T.width + T.width := by rw [Nat.add_mul]; omega
  have hrd : faithful.readBytes h (s.buffer_size * T.width) fs
      = (((((x :: rest.take c').flatten.length : Nat) : Int), (x :: rest.take c').flatten),
          { fs with cursor := fs.cursor + (x :: rest.take c').flatten.length }) := by
    simp only [faithful, hsize, hdata]
  have hund := underflow_of_full_element T faithful s h hfile fs hw
    (by rw [hrd]; simp only [hdlen]; push_cast; omega)
    (by rw [hrd]; simp only [hdlen]; push_cast; omega)
  rw [hrd] at hund
  have hdiv : (((x :: rest.take c').flatten.length : Nat) : Int) / (T.width : Int)
      = (((0 : Nat) + (x :: rest.take c').length : Nat) : Int) := by
    rw [flatten_length_of_width T.width _ hpw1, Nat.zero_add, ← Int.ofNat_ediv,
      Nat.mul_div_cancel _ (by omega)]
  simp only [hdiv] at hund
  have hpos : ((0 : Nat) : Int) < (((0 : Nat) + (x :: rest.take c').length : Nat) : Int) := by
    simp only [List.length_cons]; omega
  refine ⟨{ s with buffer := writeMem s.buffer 0 (x :: rest.take c').flatten,
                   getArea := some ⟨0, ((0 : Nat) : Int),
                     (((0 : Nat) + (x :: rest.take c').length : Nat) : Int)⟩ },
    { fs with cursor := fs.cursor + (x :: rest.take c').flatten.length }, ?_,
    ⟨h, hfile⟩, hsize, hpw1, ?_, ?_, ?_⟩
  · -- both sides consume the first element of the refilled buffer
    have hne : T.to_int_type (elemAt T { s with
          buffer := writeMem s.buffer 0 (x :: rest.take c').flatten,
          getArea := some ⟨0, 0, (((0 : Nat) + (x :: rest.take c').length : Nat) : Int)⟩ } 0)
        ≠ T.eof := by
      apply hT.to_int_ne_eof
      simp only [elemAt, hbuf, writeMem, readMem, Int.toNat_zero, Nat.zero_mul, List.drop_zero,
        List.length_take, List.take_zero, List.nil_append, Nat.zero_add, List.length_append,
        List.length_drop, hlen, hdlen]
      omega
    have huf : uflow T faithful s fs = sbumpc T faithful { s with
          buffer := writeMem s.buffer 0 (x :: rest.take c').flatten,
          getArea := some ⟨0, ((0 : Nat) : Int),
            (((0 : Nat) + (x :: rest.take c').length : Nat) : Int)⟩ }
        { fs with cursor := fs.cursor + (x :: rest.take c').flatten.length } := by
      have hpos0 : (0 : Int) < (((0 : Nat) + (x :: rest.take c').length : Nat) : Int) := by
        simpa only [Nat.cast_zero] using hpos
      have hl : uflow T faithful s fs = (T.to_int_type (elemAt T { s with
            buffer := writeMem s.buffer 0 (x :: rest.take c').flatten,
            getArea := some ⟨0, 0, (((0 : Nat) + (x :: rest.take c').length : Nat) : Int)⟩ } 0),
          { s with buffer := writeMem s.buffer 0 (x :: rest.take c').flatten,
                   getArea := some ⟨0, 0 + 1,
                     (((0 : Nat) + (x :: rest.take c').length : Nat) : Int)⟩ },
          { fs with cursor := fs.cursor + (x :: rest.take c').flatten.length }) := by
        simp only [uflow, hund, hne, if_false]
      rw [hl]
      simp only [sbumpc, Nat.cast_zero, hpos0, if_true, elemAt]
    rw [← huf]
    rcases hbuffered with ⟨hnone, _⟩ | ⟨g, hget, _, _⟩
    · simp only [sbumpc, hnone]
    · simp only [sbumpc, hget, List.length_nil, Nat.add_zero, lt_self_iff_false, if_false]
  · intro y hy
    exact hrw y (List.mem_of_mem_drop hy)
  · show fs.content.drop (fs.cursor + (x :: rest.take c').flatten.length) = _
    rw [← List.drop_drop, hon]
    have hsplit : (x :: rest).flatten
        = (x :: rest.take c').flatten ++ ((x :: rest).drop (c' + 1)).flatten := by
      rw [← List.flatten_append]
      congr 1
      simp only [List.drop_succ_cons, List.cons_append, List.take_append_drop]
    rw [hsplit, List.drop_left]
  · refine ⟨_, by simp only [hbuf, writeMem]; rfl, ?_, Or.inr ⟨0, rfl, ?_, ?_⟩⟩
    · simp only [List.length_take, List.take_zero, List.nil_append, Nat.zero_add,
        List.length_append, List.length_drop, hlen, hdlen]
      omega
    · simp only [List.length_cons]; omega
    · simp only [Nat.zero_mul, List.drop_zero, List.take_zero, List.nil_append, Nat.zero_add]
      rw [List.take_take, Nat.min_eq_left, ← flatten_length_of_width T.width _ hpw1,
        List.take_left]
      rw [hlen, List.length_cons]
      have : ((rest.take c').length + 1) * T.width ≤ (c' + 1) * T.width :=
        Nat.mul_le_mul_right _ (by omega)
      exact this

theorem sbumpc_exhausted {T : traits_type} (hT : T.Lawful) {c : Nat}
    {s : physfs_basic_streambuf} {fs : FileSys} (hinv : ReadInv T c s fs [] []) :
    (sbumpc T faithful s fs).1 = T.eof := by
  obtain ⟨⟨h, hfile⟩, hsize, hpw, hrw, hon, b, hbuf, hlen, hbuffered⟩ := hinv
  have hw := hT.width_pos
  have hu0 : toUInt64 0 = 0 := by decide
  have hdata : (fs.content.drop fs.cursor).take (s.buffer_size * T.width) = [] := by
    rw [hon]; simp
  have hlt : toUInt64 ((([] : List Byte).length : Nat) : Int) < T.width := by
    simp only [List.length_nil, Nat.cast_zero, hu0]; omega
  have hund : (underflow T faithful s fs).1 = T.eof := by
    simp only [underflow, hfile, faithful, hdata, hlt, if_true]
  have huf : (uflow T faithful s fs).1 = T.eof := by
    simp only [uflow, hund, if_true]
  rcases hbuffered with ⟨hnone, _⟩ | ⟨g, hget, _, _⟩
  · simpa only [sbumpc, hnone] using huf
  · simpa only [sbumpc, hget, List.length_nil, Nat.add_zero, lt_self_iff_false, if_false] using huf

theorem drain_faithful {T : traits_type} (hT : T.Lawful) {c : Nat} (hc : 1 ≤ c)
    (hsz : c * T.width < 2 ^ 63) (all : List char_type) :
    ∀ (s : physfs_basic_streambuf) (fs : FileSys) (pend rest : List char_type),
      pend ++ rest = all → ReadInv T c s fs pend rest →
      ∀ fuel : Nat, all.length + 1 ≤ fuel →
        drain T faithful fuel s fs = some (all.map T.to_int_type) := by
  induction all with
  | nil =>
    intro s fs pend rest hall hinv fuel hfuel
    obtain ⟨rfl, rfl⟩ := List.append_eq_nil.mp hall
    obtain ⟨k, rfl⟩ : ∃ k, fuel = k + 1 := ⟨fuel - 1, by simp at hfuel; omega⟩
    simp [drain, sbumpc_exhausted hT hinv]
  | cons x all ih =>
    intro s fs pend rest hall hinv fuel hfuel
    obtain ⟨k, rfl⟩ : ∃ k, fuel = k + 1 := ⟨fuel - 1, by simp at hfuel; omega⟩
    have hk : all.length + 1 ≤ k := by simp at hfuel; omega
    -- in both cases the next read consumes `x` from a filled buffer
    have key : ∃ (s0 : physfs_basic_streambuf) (fs0 : FileSys) (pend0 rest0 : List char_type),
        sbumpc T faithful s fs = sbumpc T faithful s0 fs0
        ∧ pend0 ++ rest0 = all ∧ ReadInv T c s0 fs0 (x :: pend0) rest0 := by
      cases pend with
      | nil =>
        simp only [List.nil_append] at hall
        subst hall
        obtain ⟨s1, fs1, h1, hinv1⟩ := sbumpc_refill hT hc hsz hinv
        refine ⟨s1, fs1, all.take (c - 1), (x :: all).drop c, h1, ?_, hinv1⟩
        obtain ⟨c', rfl⟩ : ∃ c', c = c' + 1 := ⟨c - 1, by omega⟩
        simp
      | cons y pend =>
        simp only [List.cons_append, List.cons.injEq] at hall
        obtain ⟨rfl, hall⟩ := hall
        exact ⟨s, fs, pend, rest, rfl, hall, hinv⟩
    obtain ⟨s0, fs0, pend0, rest0, hsb, hall0, hinv0⟩ := key
    obtain ⟨s1, hsb1, hinv1⟩ := sbumpc_buffered hinv0
    have hne : T.to_int_type x ≠ T.eof :=
      hT.to_int_ne_eof x (hinv0.pend_width x (List.mem_cons_self _ _))
    have := ih s1 fs0 pend0 rest0 hall0 hinv1 k hk
    simp [drain, hsb, hsb1, hne, this]

/-- The fill of an adapter whose array the path constructor allocated:
`underflow` makes exactly one read call, for `c * w` bytes; when the library
returns `r` bytes with `w ≤ r ≤ c * w`, the get area becomes the first
`r / w` elements of the buffer with `gptr()` at the first one, the put
area pointers are unchanged, and the return value is `to_int_type` of the
first buffer element, which is not `eof()`. -/
theorem underflow_fill {W : Type} (T : traits_type) (hT : T.Lawful) (L : PhysFS W)
    (s : physfs_basic_streambuf) (h : Handle) (hfile : s.file = some h)
    (b : List Byte) (hbuf : s.buffer = some b) (hlen : b.length = s.buffer_size * T.width)
    (world : W) (log : List Call) :
    (s.underflow T (logged L) (world, log)).2.2
        = ((L.readBytes h (s.buffer_size * T.width) world).2,
           log ++ [Call.readBytes h (s.buffer_size * T.width)])
    ∧ (∀ r : Int, (L.readBytes h (s.buffer_size * T.width) world).1.1 = r →
        (T.width : Int) ≤ r → r ≤ ((s.buffer_size * T.width : Nat) : Int) → r < 2 ^ 63 →
        (s.underflow T (logged L) (world, log)).2.1
            = { s with buffer := writeMem s.buffer 0 (L.readBytes h (s.buffer_size * T.width) world).1.2,
                       getArea := some ⟨0, 0, r / (T.width : Int)⟩ }
        ∧ (s.underflow T (logged L) (world, log)).2.1.gptr = 0
        ∧ (s.underflow T (logged L) (world, log)).2.1.egptr = r / (T.width : Int)
        ∧ (s.underflow T (logged L) (world, log)).2.1.putArea = s.putArea
        ∧ (s.underflow T (logged L) (world, log)).1
            = T.to_int_type (elemAt T (s.underflow T (logged L) (world, log)).2.1 0)
        ∧ (elemAt T (s.underflow T (logged L) (world, log)).2.1 0).length = T.width
        ∧ (s.underflow T (logged L) (world, log)).1 ≠ T.eof) := by
  constructor
  · simp only [underflow, hfile]
    split <;> simp [logged]
  · intro r hr hr1 hr2 hr3
    have hw := hT.width_pos
    have hu := underflow_of_full_element T (logged L) s h hfile (world, log) hw
      (by simpa [logged, hr] using hr1) (by simpa [logged, hr] using hr3)
    have hrd : ((logged L).readBytes h (s.buffer_size * T.width) (world, log)).1
        = (L.readBytes h (s.buffer_size * T.width) world).1 := rfl
    rw [hrd, hr] at hu
    have hcap : T.width ≤ b.length := by
      rw [hlen]; push_cast at hr2; 
      have : (T.width : Int) ≤ (s.buffer_size : Int) * (T.width : Int) := le_trans hr1 hr2
      exact_mod_cast this
    have hel : (elemAt T { s with
          buffer := writeMem s.buffer 0 (L.readBytes h (s.buffer_size * T.width) world).1.2,
          getArea := some ⟨0, 0, r / (T.width : Int)⟩ } 0).length = T.width := by
      simp only [elemAt, hbuf, writeMem, readMem, Int.toNat_zero, Nat.zero_mul, List.drop_zero,
        List.length_take, List.take_zero, List.nil_append, Nat.zero_add, List.length_append,
        List.length_drop]
      omega
    rw [hu]
    refine ⟨rfl, rfl, rfl, rfl, rfl, hel, ?_⟩
    exact hT.to_int_ne_eof _ hel

/-- In a state with an open handle, nothing pending and no free slot,
`overflow` runs out of any fuel. -/
theorem overflow_no_slot {W : Type} (T : traits_type) (L : PhysFS W)
    (s : physfs_basic_streambuf) (h : Handle) (hfile : s.file = some h)
    (hput : s.putArea = none ∨ s.putArea = some ⟨0, 0, 0⟩) (fuel : Nat) :
    ∀ (i : Int) (world : W), overflow T L fuel i s world = none := by
  have hsync : ∀ world : W, s.sync T L world = (0, s, world) := by
    intro world
    rcases hput with hp | hp <;> simp [sync, hfile, pptr, pbase, hp]
  induction fuel with
  | zero => intro i world; rfl
  | succ k ih =>
    intro i world
    simp only [overflow, hfile, hsync]
    rcases hput with hp | hp <;> simp [sputc_via, hp, ih]

/-! ## The claims -/

/-- C1 (round trip): for every capacity of at least one element and every
sequence of elements, putting the elements one by one into an adapter
opened for writing on an empty faithful file and calling `sync` leaves
exactly their bytes, in order, as the file content; draining an adapter
opened for reading on that content with `sbumpc` returns exactly the
encodings of the same elements in the same order and then `eof()`. -/
theorem round_trip (T : traits_type) (hT : T.Lawful) (c : Nat) (hc : 1 ≤ c)
    (hsz : c * T.width < 2 ^ 63) (xs : List char_type) (hxs : ∀ x ∈ xs, x.length = T.width)
    (junk junk2 : Nat → Byte) (filename : String) (fuel : Nat) :
    ∃ (s1 : physfs_basic_streambuf) (fs1 : FileSys),
      put_all T faithful (fuel + 1) xs
          (ctor_path T faithful junk filename ios_out c ⟨[], 0⟩).1
          (ctor_path T faithful junk filename ios_out c ⟨[], 0⟩).2
        = some (xs.map T.to_int_type, s1, fs1)
      ∧ (s1.sync T faithful fs1).1 = 0
      ∧ (s1.sync T faithful fs1).2.2.content = xs.flatten
      ∧ drain T faithful (xs.length + 1 + fuel)
          (ctor_path T faithful junk2 filename ios_in c (s1.sync T faithful fs1).2.2).1
          (ctor_path T faithful junk2 filename ios_in c (s1.sync T faithful fs1).2.2).2
        = some (xs.map T.to_int_type)
      ∧ (xs.map T.to_int_type).map T.to_char_type = xs := by
  obtain ⟨s1, fs1, h1, h2, h3⟩ := write_then_sync_faithful hT hc junk filename ⟨[], 0⟩ fuel xs hxs
  refine ⟨s1, fs1, h1, h2, h3, ?_, map_to_char_to_int hT xs hxs⟩
  rw [ctor_path_in T faithful junk2 filename c _ 1 rfl]
  have hinv : ReadInv T c ⟨some 1, some ((List.range (c * T.width)).map junk2), c, none,
      some ⟨0, 0, (c : Int)⟩⟩ (faithful.openRead filename (s1.sync T faithful fs1).2.2).2 [] xs :=
    ⟨⟨1, rfl⟩, rfl, by simp, hxs,
      by show List.drop 0 (s1.sync T faithful fs1).2.2.content = _; rw [List.drop_zero, h3],
      _, rfl, by simp, Or.inl ⟨rfl, rfl⟩⟩
  exact drain_faithful hT hc hsz xs _ _ [] xs rfl hinv _ (by omega)

theorem round_trip_witness :
    1 ≤ 4 ∧ 4 * char_traits_char.width < 2 ^ 63
    ∧ (∀ x ∈ abcde, x.length = char_traits_char.width)
    ∧ ∃ (s1 : physfs_basic_streambuf) (fs1 : FileSys),
      put_all char_traits_char faithful (0 + 1) abcde
          (ctor_path char_traits_char faithful (fun _ => 0) "f" ios_out 4 ⟨[], 0⟩).1
          (ctor_path char_traits_char faithful (fun _ => 0) "f" ios_out 4 ⟨[], 0⟩).2
        = some (abcde.map char_traits_char.to_int_type, s1, fs1)
      ∧ (s1.sync char_traits_char faithful fs1).1 = 0
      ∧ (s1.sync char_traits_char faithful fs1).2.2.content = abcde.flatten
      ∧ drain char_traits_char faithful (abcde.length + 1 + 0)
          (ctor_path char_traits_char faithful (fun _ => 0) "f" ios_in 4
            (s1.sync char_traits_char faithful fs1).2.2).1
          (ctor_path char_traits_char faithful (fun _ => 0) "f" ios_in 4
            (s1.sync char_traits_char faithful fs1).2.2).2
        = some (abcde.map char_traits_char.to_int_type)
      ∧ (abcde.map char_traits_char.to_int_type).map char_traits_char.to_char_type = abcde :=
  ⟨by decide, by decide, by decide,
    round_trip char_traits_char char_traits_char_lawful 4 (by decide) (by decide) abcde
      (by decide) (fun _ => 0) (fun _ => 0) "f" 0⟩

/-- C2 (overflow on a full buffer): for every capacity `c` of at least one
element and `c + 1` elements put one at a time into a freshly opened write
adapter whose library writes all succeed in full, the first `c` puts make
no library call; the last put makes exactly one write call, whose payload is
the first `c` elements in order, and leaves exactly the last element
staged; the final `sync` makes one more write call carrying only that
element. On a faithful file the content is then all `c + 1` elements in order. -/
theorem overflow_on_full_buffer {W : Type} (T : traits_type) (hT : T.Lawful) (L : PhysFS W)
    (c : Nat) (hc : 1 ≤ c) (front : List char_type) (x : char_type)
    (hfront : front.length = c) (hfw : ∀ y ∈ front, y.length = T.width)
    (hx : x.length = T.width) (h : Handle) (filename : String) (world : W) (log : List Call)
    (hopen : (L.openWrite filename world).1 = some h)
    (hfull : ∀ (k : Handle) (p : List Byte) (n : Nat) (v : W),
      (n : Int) ≤ (L.writeBytes k p n v).1)
    (junk junk2 : Nat → Byte) (fs : FileSys) (fuel : Nat) :
    (∃ s1 s2 : physfs_basic_streambuf,
      (ctor_path T (logged L) junk filename ios_out c (world, log)).2
          = ((L.openWrite filename world).2, log ++ [Call.openWrite filename])
      ∧ put_all T (logged L) fuel front
            (ctor_path T (logged L) junk filename ios_out c (world, log)).1
            ((L.openWrite filename world).2, log ++ [Call.openWrite filename])
          = some (front.map T.to_int_type, s1,
              ((L.openWrite filename world).2, log ++ [Call.openWrite filename]))
      ∧ sputc T (logged L) (fuel + 1) s1 x
            ((L.openWrite filename world).2, log ++ [Call.openWrite filename])
          = some (T.to_int_type x, s2,
              ((L.writeBytes h front.flatten (c * T.width) (L.openWrite filename world).2).2,
               log ++ [Call.openWrite filename, Call.writeBytes h front.flatten (c * T.width)]))
      ∧ s2.pptr - s2.pbase = 1
      ∧ elemAt T s2 0 = x
      ∧ s2.sync T (logged L)
            ((L.writeBytes h front.flatten (c * T.width) (L.openWrite filename world).2).2,
             log ++ [Call.openWrite filename, Call.writeBytes h front.flatten (c * T.width)])
          = (0, s2.setp c,
              ((L.writeBytes h x T.width
                  (L.writeBytes h front.flatten (c * T.width) (L.openWrite filename world).2).2).2,
               log ++ [Call.openWrite filename, Call.writeBytes h front.flatten (c * T.width),
                 Call.writeBytes h x T.width])))
    ∧ (∃ (sF : physfs_basic_streambuf) (fsF : FileSys),
        put_all T faithful (fuel + 1) (front ++ [x])
            (ctor_path T faithful junk2 filename ios_out c fs).1
            (ctor_path T faithful junk2 filename ios_out c fs).2
          = some ((front ++ [x]).map T.to_int_type, sF, fsF)
        ∧ (sF.sync T faithful fsF).1 = 0
        ∧ (sF.sync T faithful fsF).2.2.content = (front ++ [x]).flatten) := by
  constructor
  · have hopenL : ((logged L).openWrite filename (world, log)).1 = some h := hopen
    have hctor := ctor_path_out T (logged L) junk filename c (world, log) h hopenL
    have hw0 : ((logged L).openWrite filename (world, log)).2
        = ((L.openWrite filename world).2, log ++ [Call.openWrite filename]) := rfl
    rw [hw0] at hctor
    rw [hctor]
    obtain ⟨s1, h1, hinv1⟩ := put_all_room (logged L) fuel
      ((L.openWrite filename world).2, log ++ [Call.openWrite filename]) front hfw _ 0 []
      (PutInv.fresh T c h junk) (by omega)
    rw [Nat.zero_add, hfront, List.nil_append] at hinv1
    have hfullL : ((c * T.width : Nat) : Int)
        ≤ ((logged L).writeBytes h front.flatten (c * T.width)
            ((L.openWrite filename world).2, log ++ [Call.openWrite filename])).1 :=
      hfull _ _ _ _
    obtain ⟨s2, h2, hinv2⟩ := sputc_full hT (logged L) hc hinv1 x hx fuel _ hfullL
    have hsync := sync_staged (logged L) hinv2 (Nat.le_refl 1)
      ((logged L).writeBytes h front.flatten (c * T.width)
            ((L.openWrite filename world).2, log ++ [Call.openWrite filename])).2
    rw [if_neg (by
      have := hfull h x (1 * T.width)
        (L.writeBytes h front.flatten (c * T.width) (L.openWrite filename world).2).2
      simp only [logged]; omega)] at hsync
    obtain ⟨hfile2, hsize2, b2, hbuf2, hlen2, _, hput2, htake2⟩ := hinv2
    refine ⟨s1, s2, rfl, h1, ?_, ?_, ?_, ?_⟩
    · rw [h2]; simp [logged]
    · simp [pptr, pbase, hput2]
    · simpa [elemAt, readMem, hbuf2] using htake2
    · have e : ((logged L).writeBytes h front.flatten (c * T.width)
            ((L.openWrite filename world).2, log ++ [Call.openWrite filename])).2
          = ((L.writeBytes h front.flatten (c * T.width) (L.openWrite filename world).2).2,
             log ++ [Call.openWrite filename, Call.writeBytes h front.flatten (c * T.width)]) := by
        simp [logged]
      rw [hsize2, e] at hsync
      simp only [Nat.one_mul] at hsync
      rw [hsync]; simp [logged]
  · have hall : ∀ y ∈ front ++ [x], y.length = T.width := by
      intro y hy
      rcases List.mem_append.mp hy with hy | hy
      · exact hfw y hy
      · rw [List.mem_singleton.mp hy]; exact hx
    exact write_then_sync_faithful hT hc junk2 filename fs fuel (front ++ [x]) hall

theorem overflow_on_full_buffer_witness :
    1 ≤ 4 ∧ abcde.dropLast.length = 4
    ∧ (∀ y ∈ abcde.dropLast, y.length = char_traits_char.width)
    ∧ ([69] : char_type).length = char_traits_char.width
    ∧ (faithful.openWrite "f" ⟨[], 0⟩).1 = some 1
    ∧ (∀ (k : Handle) (p : List Byte) (n : Nat) (v : FileSys),
        (n : Int) ≤ (faithful.writeBytes k p n v).1)
    ∧ (∃ s1 s2 : physfs_basic_streambuf,
      (ctor_path char_traits_char (logged faithful) (fun _ => 0) "f" ios_out 4 (⟨[], 0⟩, [])).2
          = ((faithful.openWrite "f" ⟨[], 0⟩).2, [] ++ [Call.openWrite "f"])
      ∧ put_all char_traits_char (logged faithful) 0 abcde.dropLast
            (ctor_path char_traits_char (logged faithful) (fun _ => 0) "f" ios_out 4
              (⟨[], 0⟩, [])).1
            ((faithful.openWrite "f" ⟨[], 0⟩).2, [] ++ [Call.openWrite "f"])
          = some (abcde.dropLast.map char_traits_char.to_int_type, s1,
              ((faithful.openWrite "f" ⟨[], 0⟩).2, [] ++ [Call.openWrite "f"]))
      ∧ sputc char_traits_char (logged faithful) (0 + 1) s1 [69]
            ((faithful.openWrite "f" ⟨[], 0⟩).2, [] ++ [Call.openWrite "f"])
          = some (char_traits_char.to_int_type [69], s2,
              ((faithful.writeBytes 1 abcde.dropLast.flatten (4 * char_traits_char.width)
                  (faithful.openWrite "f" ⟨[], 0⟩).2).2,
               [] ++ [Call.openWrite "f",
                 Call.writeBytes 1 abcde.dropLast.flatten (4 * char_traits_char.width)]))
      ∧ s2.pptr - s2.pbase = 1
      ∧ elemAt char_traits_char s2 0 = [69]
      ∧ s2.sync char_traits_char (logged faithful)
            ((faithful.writeBytes 1 abcde.dropLast.flatten (4 * char_traits_char.width)
                (faithful.openWrite "f" ⟨[], 0⟩).2).2,
             [] ++ [Call.openWrite "f",
               Call.writeBytes 1 abcde.dropLast.flatten (4 * char_traits_char.width)])
          = (0, s2.setp (4 : Nat),
              ((faithful.writeBytes 1 [69] char_traits_char.width
                  (faithful.writeBytes 1 abcde.dropLast.flatten (4 * char_traits_char.width)
                    (faithful.openWrite "f" ⟨[], 0⟩).2).2).2,
               [] ++ [Call.openWrite "f",
                 Call.writeBytes 1 abcde.dropLast.flatten (4 * char_traits_char.width),
                 Call.writeBytes 1 [69] char_traits_char.width])))
    ∧ (∃ (sF : physfs_basic_streambuf) (fsF : FileSys),
        put_all char_traits_char faithful (0 + 1) (abcde.dropLast ++ [[69]])
            (ctor_path char_traits_char faithful (fun _ => 0) "f" ios_out 4 ⟨[], 0⟩).1
            (ctor_path char_traits_char faithful (fun _ => 0) "f" ios_out 4 ⟨[], 0⟩).2
          = some ((abcde.dropLast ++ [[69]]).map char_traits_char.to_int_type, sF, fsF)
        ∧ (sF.sync char_traits_char faithful fsF).1 = 0
        ∧ (sF.sync char_traits_char faithful fsF).2.2.content
            = (abcde.dropLast ++ [[69]]).flatten) :=
  ⟨by decide, by decide, by decide, by decide, rfl, fun _ _ _ _ => le_refl _,
    overflow_on_full_buffer char_traits_char char_traits_char_lawful faithful 4 (by decide)
      abcde.dropLast [69] (by decide) (by decide) (by decide) 1 "f" ⟨[], 0⟩ [] rfl
      (fun _ _ _ _ => le_refl _) (fun _ => 0) (fun _ => 0) ⟨[], 0⟩ 0⟩

/-- C3 (permanent no-handle failure): in every state whose handle is null,
`underflow` and `overflow` return `eof()`, `showmanyc` and `sync` return
`-1`, each without a library call and without changing the state, and every
further sequence of these members returns the same values again. -/
theorem no_handle_failure {W : Type} (T : traits_type) (L : PhysFS W)
    (s : physfs_basic_streambuf) (hnull : s.file = none) (world : W) (log : List Call)
    (fuel : Nat) (i : Int) (ops : List Op) :
    s.underflow T (logged L) (world, log) = (T.eof, s, (world, log))
    ∧ s.showmanyc (logged L) (world, log) = (-1, s, (world, log))
    ∧ overflow T (logged L) (fuel + 1) i s (world, log) = some (T.eof, s, (world, log))
    ∧ s.sync T (logged L) (world, log) = (-1, s, (world, log))
    ∧ Op.callAll T (logged L) (fuel + 1) ops s (world, log)
        = some (ops.map (Op.sentinel T), s, (world, log)) := by
  refine ⟨?_, ?_, ?_, ?_, callAll_null T (logged L) fuel s hnull (world, log) ops⟩
  · simp [underflow, hnull]
  · simp [showmanyc, hnull]
  · simp [overflow, hnull]
  · simp [sync, hnull]

theorem no_handle_failure_witness :
    (ctor_default 4).file = none
    ∧ (ctor_default 4).underflow char_traits_char (logged faithful) (⟨[], 0⟩, [])
        = (char_traits_char.eof, ctor_default 4, (⟨[], 0⟩, []))
    ∧ (ctor_default 4).showmanyc (logged faithful) (⟨[], 0⟩, [])
        = (-1, ctor_default 4, (⟨[], 0⟩, []))
    ∧ overflow char_traits_char (logged faithful) (0 + 1) 65 (ctor_default 4) (⟨[], 0⟩, [])
        = some (char_traits_char.eof, ctor_default 4, (⟨[], 0⟩, []))
    ∧ (ctor_default 4).sync char_traits_char (logged faithful) (⟨[], 0⟩, [])
        = (-1, ctor_default 4, (⟨[], 0⟩, []))
    ∧ Op.callAll char_traits_char (logged faithful) (0 + 1)
          [Op.sync, Op.overflow 65, Op.underflow, Op.showmanyc, Op.sync] (ctor_default 4)
          (⟨[], 0⟩, [])
        = some ([Op.sync, Op.overflow 65, Op.underflow, Op.showmanyc, Op.sync].map
            (Op.sentinel char_traits_char), ctor_default 4, (⟨[], 0⟩, [])) :=
  ⟨rfl, no_handle_failure char_traits_char faithful (ctor_default 4) rfl ⟨[], 0⟩ [] 0 65
    [Op.sync, Op.overflow 65, Op.underflow, Op.showmanyc, Op.sync]⟩

/-- C4 (short read means end of stream), evaluated where the code departs
from it: when `PHYSFS_readBytes` reports the error value `-1`, `underflow`
of a byte adapter does not return `eof()`; it installs a get area ending
one element before the buffer start and returns the encoding of the
indeterminate first buffer element. -/
theorem underflow_negative_count_not_eof :
    failed_read = (65, ⟨some 1, some [65, 65, 65, 65], 4, some ⟨0, 0, -1⟩, some ⟨0, 0, 4⟩⟩, ())
    ∧ failed_read.1 ≠ char_traits_char.eof := by
  decide

/-- C5 (flush postcondition): for an open adapter with `n` pending
elements, `sync` with `n = 0` makes no library call, changes nothing and
returns `0`; with `n > 0` it makes exactly one write call, for the `n`
pending elements from the buffer start, and returns `0` with the put
area reset to the whole buffer when the library reports at least that many
bytes, and `-1` otherwise. In any state `sync` returns `-1` exactly when the
handle is null or the write was short. -/
theorem sync_postcondition {W : Type} (T : traits_type) (L : PhysFS W)
    (s : physfs_basic_streambuf) (h : Handle) (hfile : s.file = some h)
    (b : List Byte) (hbuf : s.buffer = some b) (hlen : b.length = s.buffer_size * T.width)
    (n : Nat) (hn : n ≤ s.buffer_size)
    (hput : s.putArea = some ⟨0, (n : Int), (s.buffer_size : Int)⟩)
    (world : W) (log : List Call) :
    s.pptr - s.pbase = (n : Int)
    ∧ (n = 0 → s.sync T (logged L) (world, log) = (0, s, (world, log)))
    ∧ (0 < n →
        (b.take (n * T.width)).length = n * T.width
        ∧ (s.sync T (logged L) (world, log)).2.2
            = ((L.writeBytes h (b.take (n * T.width)) (n * T.width) world).2,
               log ++ [Call.writeBytes h (b.take (n * T.width)) (n * T.width)])
        ∧ (((n * T.width : Nat) : Int) ≤ (L.writeBytes h (b.take (n * T.width)) (n * T.width) world).1 →
            (s.sync T (logged L) (world, log)).1 = 0
            ∧ (s.sync T (logged L) (world, log)).2.1
                = { s with putArea := some ⟨0, 0, (s.buffer_size : Int)⟩ }
            ∧ (s.sync T (logged L) (world, log)).2.1.pptr
                - (s.sync T (logged L) (world, log)).2.1.pbase = 0
            ∧ (s.sync T (logged L) (world, log)).2.1.epptr
                - (s.sync T (logged L) (world, log)).2.1.pptr = (s.buffer_size : Int))
        ∧ ((L.writeBytes h (b.take (n * T.width)) (n * T.width) world).1 < ((n * T.width : Nat) : Int) →
            (s.sync T (logged L) (world, log)).1 = -1
            ∧ (s.sync T (logged L) (world, log)).2.1 = s))
    ∧ (∀ t : physfs_basic_streambuf,
        (t.sync T L world).1 = -1 ↔
          (t.file = none ∨ ∃ k : Handle, t.file = some k ∧ 0 < t.pptr - t.pbase
            ∧ (L.writeBytes k
                (readMem t.buffer (t.pbase.toNat * T.width) ((t.pptr - t.pbase) * T.width).toNat)
                ((t.pptr - t.pbase) * T.width).toNat world).1 < (t.pptr - t.pbase) * T.width)) := by
  have hpp : s.pptr = (n : Int) := by simp [pptr, hput]
  have hpb : s.pbase = 0 := by simp [pbase, hput]
  have hmul : ((n : Int) * (T.width : Int)).toNat = n * T.width := by
    rw [← Nat.cast_mul]; exact Int.toNat_ofNat _
  refine ⟨by rw [hpp, hpb]; simp, ?_, ?_, ?_⟩
  · intro h0
    subst h0
    simp [sync, hfile, hpp, hpb]
  · intro hpos
    have hposI : (0 : Int) < (n : Int) := by exact_mod_cast hpos
    have hsync : s.sync T (logged L) (world, log)
        = (if (L.writeBytes h (b.take (n * T.width)) (n * T.width) world).1 < (n : Int) * (T.width : Int)
            then (-1, s, ((L.writeBytes h (b.take (n * T.width)) (n * T.width) world).2,
               log ++ [Call.writeBytes h (b.take (n * T.width)) (n * T.width)]))
            else (0, s.setp s.buffer_size,
              ((L.writeBytes h (b.take (n * T.width)) (n * T.width) world).2,
               log ++ [Call.writeBytes h (b.take (n * T.width)) (n * T.width)]))) := by
      simp [sync, hfile, hpp, hpb, hposI, hmul, readMem, hbuf, logged]
    refine ⟨?_, ?_, ?_, ?_⟩
    · rw [List.length_take, hlen]
      exact Nat.min_eq_left (Nat.mul_le_mul_right _ hn)
    · rw [hsync]; split <;> rfl
    · intro hge
      have hnl : ¬ (L.writeBytes h (b.take (n * T.width)) (n * T.width) world).1
          < (n : Int) * (T.width : Int) := by push_cast at hge; omega
      rw [hsync, if_neg hnl]
      simp [setp, pptr, pbase, epptr]
    · intro hlt
      have hl : (L.writeBytes h (b.take (n * T.width)) (n * T.width) world).1
          < (n : Int) * (T.width : Int) := by push_cast at hlt; omega
      rw [hsync, if_pos hl]
      simp
  · intro t
    cases hf : t.file with
    | none => simp [sync, hf]
    | some k =>
      by_cases hp : 0 < t.pptr - t.pbase
      · simp only [sync, hf, gt_iff_lt, hp, if_true]
        split <;> simp_all
      · simp [sync, hf, hp]

theorem sync_postcondition_witness :
    staged_two.file = some 1 ∧ staged_two.buffer = some [65, 66, 0, 0]
    ∧ ([65, 66, 0, 0] : List Byte).length = staged_two.buffer_size * char_traits_char.width
    ∧ 2 ≤ staged_two.buffer_size
    ∧ staged_two.putArea = some ⟨0, ((2 : Nat) : Int), (staged_two.buffer_size : Int)⟩
    ∧ staged_two.pptr - staged_two.pbase = ((2 : Nat) : Int)
    ∧ (staged_two.sync char_traits_char (logged faithful) (⟨[], 0⟩, [])).2.2
        = (⟨[65, 66], 2⟩, [Call.writeBytes 1 [65, 66] 2])
    ∧ (staged_two.sync char_traits_char (logged faithful) (⟨[], 0⟩, [])).1 = 0
    ∧ (staged_two.sync char_traits_char (logged faithful) (⟨[], 0⟩, [])).2.1
        = { staged_two with putArea := some ⟨0, 0, 4⟩ } :=
  ⟨rfl, rfl, by decide, by decide, rfl,
    (sync_postcondition char_traits_char faithful staged_two 1 rfl [65, 66, 0, 0] rfl
      (by decide) 2 (by decide) rfl ⟨[], 0⟩ []).1,
    ((sync_postcondition char_traits_char faithful staged_two 1 rfl [65, 66, 0, 0] rfl
      (by decide) 2 (by decide) rfl ⟨[], 0⟩ []).2.2.1 (by decide)).2.1,
    (((sync_postcondition char_traits_char faithful staged_two 1 rfl [65, 66, 0, 0] rfl
      (by decide) 2 (by decide) rfl ⟨[], 0⟩ []).2.2.1 (by decide)).2.2.1 (by decide)).1,
    (((sync_postcondition char_traits_char faithful staged_two 1 rfl [65, 66, 0, 0] rfl
      (by decide) 2 (by decide) rfl ⟨[], 0⟩ []).2.2.1 (by decide)).2.2.1 (by decide)).2.1⟩

/-- C6 (open-mode mapping of the path constructor): mode `app` issues only
open-for-append, `in` only open-for-read, `out` only open-for-write, and
any other mode no open call and a null handle. With a null handle no
buffer is allocated and no put area installed; with a handle, a buffer of
`capacity` elements is allocated and installed as an empty put area with
`capacity` free slots. -/
theorem ctor_path_open_mode {W : Type} (T : traits_type) (L : PhysFS W) (junk : Nat → Byte)
    (filename : String) (mode capacity : Nat) (world : W) (log : List Call) :
    (mode = ios_app →
      (ctor_path T (logged L) junk filename mode capacity (world, log)).2
          = ((L.openAppend filename world).2, log ++ [Call.openAppend filename])
      ∧ (ctor_path T (logged L) junk filename mode capacity (world, log)).1.file
          = (L.openAppend filename world).1)
    ∧ (mode = ios_in →
      (ctor_path T (logged L) junk filename mode capacity (world, log)).2
          = ((L.openRead filename world).2, log ++ [Call.openRead filename])
      ∧ (ctor_path T (logged L) junk filename mode capacity (world, log)).1.file
          = (L.openRead filename world).1)
    ∧ (mode = ios_out →
      (ctor_path T (logged L) junk filename mode capacity (world, log)).2
          = ((L.openWrite filename world).2, log ++ [Call.openWrite filename])
      ∧ (ctor_path T (logged L) junk filename mode capacity (world, log)).1.file
          = (L.openWrite filename world).1)
    ∧ (mode ≠ ios_app → mode ≠ ios_in → mode ≠ ios_out →
      (ctor_path T (logged L) junk filename mode capacity (world, log)).2 = (world, log)
      ∧ (ctor_path T (logged L) junk filename mode capacity (world, log)).1.file = none)
    ∧ ((ctor_path T (logged L) junk filename mode capacity (world, log)).1.file = none →
      (ctor_path T (logged L) junk filename mode capacity (world, log)).1.buffer = none
      ∧ (ctor_path T (logged L) junk filename mode capacity (world, log)).1.putArea = none)
    ∧ (∀ h : Handle,
      (ctor_path T (logged L) junk filename mode capacity (world, log)).1.file = some h →
      (∃ b : List Byte,
        (ctor_path T (logged L) junk filename mode capacity (world, log)).1.buffer = some b
        ∧ b.length = capacity * T.width)
      ∧ (ctor_path T (logged L) junk filename mode capacity (world, log)).1.putArea
          = some ⟨0, 0, (capacity : Int)⟩
      ∧ (ctor_path T (logged L) junk filename mode capacity (world, log)).1.pptr
          - (ctor_path T (logged L) junk filename mode capacity (world, log)).1.pbase = 0
      ∧ (ctor_path T (logged L) junk filename mode capacity (world, log)).1.epptr
          - (ctor_path T (logged L) junk filename mode capacity (world, log)).1.pptr
          = (capacity : Int)) := by
  cases hopen : (open_by_mode (logged L) filename mode (world, log)).1 with
  | none =>
    have hc : ctor_path T (logged L) junk filename mode capacity (world, log)
        = (⟨none, none, capacity, none, none⟩, (open_by_mode (logged L) filename mode (world, log)).2) := by
      simp [ctor_path, hopen]
    rw [hc]
    unfold open_by_mode at hopen ⊢
    refine ⟨?_, ?_, ?_, ?_, ?_, ?_⟩
    · intro hm; subst hm; simpa [logged, eq_comm] using hopen
    · intro hm; subst hm; simpa [logged, ios_in, ios_app, eq_comm] using hopen
    · intro hm; subst hm; simpa [logged, ios_in, ios_app, ios_out, eq_comm] using hopen
    · intro h1 h2 h3; simp [h1, h2, h3]
    · intro _; simp
    · intro h hfile; simp at hfile
  | some h0 =>
    have hc : ctor_path T (logged L) junk filename mode capacity (world, log)
        = (⟨some h0, some ((List.range (capacity * T.width)).map junk), capacity, none,
            some ⟨0, 0, (capacity : Int)⟩⟩,
           (open_by_mode (logged L) filename mode (world, log)).2) := by
      simp [ctor_path, hopen, setp]
    rw [hc]
    unfold open_by_mode at hopen ⊢
    refine ⟨?_, ?_, ?_, ?_, ?_, ?_⟩
    · intro hm; subst hm; simpa [logged, eq_comm] using hopen
    · intro hm; subst hm; simpa [logged, ios_in, ios_app, eq_comm] using hopen
    · intro hm; subst hm; simpa [logged, ios_in, ios_app, ios_out, eq_comm] using hopen
    · intro h1 h2 h3; simp [h1, h2, h3] at hopen
    · intro hfile; simp at hfile
    · intro h hfile; simp [pptr, pbase, epptr]

theorem ctor_path_open_mode_witness :
    ((ctor_path char_traits_char (logged faithful) (fun _ => 0) "f" ios_in 4 (⟨[7], 0⟩, [])).2
        = (⟨[7], 0⟩, [Call.openRead "f"])
      ∧ (ctor_path char_traits_char (logged faithful) (fun _ => 0) "f" ios_in 4
          (⟨[7], 0⟩, [])).1.file = some 1)
    ∧ ((ctor_path char_traits_char (logged faithful) (fun _ => 0) "f" (ios_in + ios_binary) 4
          (⟨[7], 0⟩, [])).2 = (⟨[7], 0⟩, [])
      ∧ (ctor_path char_traits_char (logged faithful) (fun _ => 0) "f" (ios_in + ios_binary) 4
          (⟨[7], 0⟩, [])).1.file = none)
    ∧ ((ctor_path char_traits_char (logged faithful) (fun _ => 0) "f" (ios_in + ios_binary) 4
          (⟨[7], 0⟩, [])).1.buffer = none
      ∧ (ctor_path char_traits_char (logged faithful) (fun _ => 0) "f" (ios_in + ios_binary) 4
          (⟨[7], 0⟩, [])).1.putArea = none) :=
  ⟨(ctor_path_open_mode char_traits_char faithful (fun _ => 0) "f" ios_in 4 ⟨[7], 0⟩ []).2.1 rfl,
    (ctor_path_open_mode char_traits_char faithful (fun _ => 0) "f" (ios_in + ios_binary) 4
      ⟨[7], 0⟩ []).2.2.2.1 (by decide) (by decide) (by decide),
    (ctor_path_open_mode char_traits_char faithful (fun _ => 0) "f" (ios_in + ios_binary) 4
      ⟨[7], 0⟩ []).2.2.2.2.1 rfl⟩

/-- C7 (available-bytes estimate formula), evaluated where the code departs
from it: with one unconsumed two-byte element in the get area, the cursor
at byte 2 and a file of 4 bytes, `showmanyc` returns `4 - (1 + 2) = 1`: it
subtracts the number of unconsumed elements, not their bytes, which would
give `4 - (2 + 2) = 0`. -/
theorem showmanyc_counts_elements :
    filled_wide.1 ≠ char_traits_wide.eof
    ∧ filled_wide.2.1.egptr - filled_wide.2.1.gptr = 1
    ∧ (faithful.tell 1 filled_wide.2.2).1 = 2
    ∧ (faithful.fileLength 1 filled_wide.2.2).1 = 4
    ∧ (filled_wide.2.1.showmanyc faithful filled_wide.2.2).1 = 1
    ∧ (filled_wide.2.1.showmanyc faithful filled_wide.2.2).1
        ≠ (faithful.fileLength 1 filled_wide.2.2).1
          - ((filled_wide.2.1.egptr - filled_wide.2.1.gptr) * (char_traits_wide.width : Int)
              + (faithful.tell 1 filled_wide.2.2).1) := by
  decide

/-- C9 (successful fill), evaluated where the code departs from it: an
adapter built from an open handle is an open adapter, but its constructor
never gives `buffer` an array. `underflow` still issues the read call for
`buffer_size * w = 4` bytes through that pointer and, the library having
delivered 3 bytes, installs a get area of 3 elements; there is no buffer
holding them, no first buffer element, and the value returned is not the
encoding of the first byte delivered. (In C++ the pointer is indeterminate
and the read through it is undefined behaviour.) -/
theorem underflow_handle_built_no_buffer :
    (ctor_file (some 1) 4).file = some 1
    ∧ (ctor_file (some 1) 4).buffer = none
    ∧ handle_built_fill.2.2.2 = [Call.readBytes 1 4]
    ∧ handle_built_fill.2.1.buffer = none
    ∧ handle_built_fill.2.1.getArea = some ⟨0, 0, 3⟩
    ∧ elemAt char_traits_char handle_built_fill.2.1 0 = []
    ∧ handle_built_fill.1 ≠ char_traits_char.to_int_type [65] := by
  decide

/-- C10 (overflow returns exactly when the put area has a slot): with a put
area of at least one slot, `overflow` returns after at most one write call:
`eof()` with the state unchanged when the write was short, otherwise
`to_int_type c` with `c` stored as the only staged element. With an open
handle and a put area without slots (no put area, as after the handle
constructor, or capacity 0) `overflow` does not return for any fuel. -/
theorem overflow_returns_iff_room {W : Type} (T : traits_type) (hT : T.Lawful) (L : PhysFS W)
    (s : physfs_basic_streambuf) (h : Handle) (hfile : s.file = some h)
    (n : Nat) (c : char_type) (hc : c.length = T.width) (fuel : Nat) (world : W)
    (log : List Call) :
    (1 ≤ s.buffer_size → s.putArea = some ⟨0, (n : Int), (s.buffer_size : Int)⟩ →
      (n = 0 →
        overflow T (logged L) (fuel + 1) (T.to_int_type c) s (world, log)
          = some (T.to_int_type c,
              { s with buffer := writeMem s.buffer 0 c,
                       putArea := some ⟨0, 1, (s.buffer_size : Int)⟩ },
              (world, log)))
      ∧ (0 < n →
        ((L.writeBytes h (readMem s.buffer 0 (n * T.width)) (n * T.width) world).1
            < ((n * T.width : Nat) : Int) →
          overflow T (logged L) (fuel + 1) (T.to_int_type c) s (world, log)
            = some (T.eof, s,
                ((L.writeBytes h (readMem s.buffer 0 (n * T.width)) (n * T.width) world).2,
                 log ++ [Call.writeBytes h (readMem s.buffer 0 (n * T.width)) (n * T.width)])))
        ∧ (((n * T.width : Nat) : Int)
            ≤ (L.writeBytes h (readMem s.buffer 0 (n * T.width)) (n * T.width) world).1 →
          overflow T (logged L) (fuel + 1) (T.to_int_type c) s (world, log)
            = some (T.to_int_type c,
                { s with buffer := writeMem s.buffer 0 c,
                         putArea := some ⟨0, 1, (s.buffer_size : Int)⟩ },
                ((L.writeBytes h (readMem s.buffer 0 (n * T.width)) (n * T.width) world).2,
                 log ++ [Call.writeBytes h (readMem s.buffer 0 (n * T.width)) (n * T.width)])))))
    ∧ ((s.putArea = none ∨ s.putArea = some ⟨0, 0, 0⟩) →
        ∀ (k : Nat) (i : Int), overflow T (logged L) k i s (world, log) = none)
    ∧ (∀ (k m : Nat) (i : Int),
        overflow T (logged L) k i (ctor_file (some h) m) (world, log) = none)
    ∧ (∀ (junk : Nat → Byte) (filename : String) (mode k : Nat) (i : Int),
        (ctor_path T (logged L) junk filename mode 0 (world, log)).1.file ≠ none →
        overflow T (logged L) k i (ctor_path T (logged L) junk filename mode 0 (world, log)).1
          (ctor_path T (logged L) junk filename mode 0 (world, log)).2 = none) := by
  refine ⟨?_, ?_, ?_, ?_⟩
  · intro hcap hput
    have hpp : s.pptr = (n : Int) := by simp [pptr, hput]
    have hpb : s.pbase = 0 := by simp [pbase, hput]
    have hmul : ((n : Int) * (T.width : Int)).toNat = n * T.width := by
      rw [← Nat.cast_mul]; exact Int.toNat_ofNat _
    have hroom : (0 : Int) < (s.buffer_size : Int) := by exact_mod_cast hcap
    have hround := hT.to_char_to_int c hc
    constructor
    · intro h0
      subst h0
      simp [overflow, hfile, sync, hpp, hpb, sputc_via, hput, hroom, hround]
    · intro hpos
      have hposI : (0 : Int) < (n : Int) := by exact_mod_cast hpos
      constructor
      · intro hshort
        push_cast at hshort
        simp [overflow, hfile, sync, hpp, hpb, hposI, hmul, logged, hshort]
      · intro hfull
        push_cast at hfull
        have hnl : ¬ (L.writeBytes h (readMem s.buffer 0 (n * T.width)) (n * T.width) world).1
            < (n : Int) * (T.width : Int) := by omega
        simp [overflow, hfile, sync, hpp, hpb, hposI, hmul, logged, hnl, setp, sputc_via, hroom,
          hround]
  · intro hput k i
    exact overflow_no_slot T (logged L) s h hfile hput k i (world, log)
  · intro k m i
    exact overflow_no_slot T (logged L) (ctor_file (some h) m) h rfl (Or.inl rfl) k i (world, log)
  · intro junk filename mode k i hopen
    cases ho : (open_by_mode (logged L) filename mode (world, log)).1 with
    | none => simp [ctor_path, ho] at hopen
    | some h0 =>
      have hc0 : ctor_path T (logged L) junk filename mode 0 (world, log)
          = (⟨some h0, some [], 0, none, some ⟨0, 0, 0⟩⟩,
             (open_by_mode (logged L) filename mode (world, log)).2) := by
        simp [ctor_path, ho, setp]
      rw [hc0]
      exact overflow_no_slot T (logged L) _ h0 rfl (Or.inr rfl) k i _

theorem overflow_returns_iff_room_witness :
    staged_two.file = some 1 ∧ ([69] : char_type).length = char_traits_char.width
    ∧ 1 ≤ staged_two.buffer_size
    ∧ staged_two.putArea = some ⟨0, ((2 : Nat) : Int), (staged_two.buffer_size : Int)⟩
    ∧ overflow char_traits_char (logged faithful) (0 + 1) (char_traits_char.to_int_type [69])
          staged_two (⟨[], 0⟩, [])
        = some (69, ⟨some 1, some [69, 66, 0, 0], 4, none, some ⟨0, 1, 4⟩⟩,
            (⟨[65, 66], 2⟩, [Call.writeBytes 1 [65, 66] 2]))
    ∧ (∀ (k : Nat) (i : Int),
        overflow char_traits_char (logged faithful) k i (ctor_file (some 1) 4) (⟨[], 0⟩, []) = none) :=
  ⟨rfl, rfl, by decide, rfl,
    (((overflow_returns_iff_room char_traits_char char_traits_char_lawful faithful staged_two 1
      rfl 2 [69] rfl 0 ⟨[], 0⟩ []).1 (by decide) rfl).2 (by decide)).2 (by decide),
    fun k i => (overflow_returns_iff_room char_traits_char char_traits_char_lawful faithful
      staged_two 1 rfl 2 [69] rfl 0 ⟨[], 0⟩ []).2.2.1 k 4 i⟩
